import Mathlib

/-!
Verification of the memory-subsystem simulator: shallow embedding of the
free-list allocator (`PhysicalMemory`), the buddy allocator
(`BuddyAllocator`), the virtual-memory manager (`VirtualMemoryManager`)
and the two-level set-associative cache (`DirectMappedCache`,
`CacheHierarchy`), together with theorems settling the specified
properties.  Machine integers (`std::size_t`, `std::uint64_t`) are
modelled as `Nat`; the only place where 64-bit wrap-around can matter for
the properties below, the physical-address computation in `translate`, is
modelled with an explicit `% 2 ^ 64`.
-/

set_option maxHeartbeats 1000000

/-- Shared helper of all four engines, from `is_power_of_two` in the
sources: `x != 0 && (x & (x - 1)) == 0`. -/
def is_power_of_two (x : Nat) : Bool :=
  x != 0 && (x &&& (x - 1)) == 0

/-- Fuel-driven computation of the floor of the base-two logarithm; with
fuel at least `n` it coincides with `Nat.log2 n` (proved below) and, on
the power-of-two inputs accepted by the constructors, with the
`static_cast<std::size_t>(std::log2(x))` used by the sources. -/
def log2_fuel : Nat → Nat → Nat
  | 0, _ => 0
  | fuel + 1, n => if 2 ≤ n then log2_fuel fuel (n / 2) + 1 else 0

/-- Floor of the base-two logarithm, from the
`static_cast<std::size_t>(std::log2(...))` calls of the cache and VM
constructors (exact on their power-of-two inputs). -/
def floor_log2 (n : Nat) : Nat :=
  log2_fuel n n

/-! ## Cache level (`DirectMappedCache.cpp`) -/

/-- Decoded physical address, from `struct CacheAddress`. -/
structure CacheAddress where
  tag : Nat
  index : Nat
  offset : Nat
deriving Repr, DecidableEq

/-- One cache line, from `struct CacheLine`; the default constructor
initialises `valid=false, tag=0, inserted_at=0`. -/
structure CacheLine where
  valid : Bool
  tag : Nat
  inserted_at : Nat
deriving Repr, DecidableEq

def CacheLine.init : CacheLine := ⟨false, 0, 0⟩

/-- State of one cache level, from class `DirectMappedCache`. -/
structure DirectMappedCache where
  cache_size : Nat
  line_size : Nat
  associativity : Nat
  num_sets : Nat
  offset_bits : Nat
  index_bits : Nat
  hits : Nat
  misses : Nat
  timestamp : Nat
  sets : List (List CacheLine)
deriving Repr, DecidableEq

/-- The `DirectMappedCache` constructor: validates the geometry and
builds `num_sets` sets of `associativity` default lines.  `std::log2` on
an exact power of two is `Nat.log2`.  Returns `none` where the C++
constructor throws. -/
def mkCache (cache_size line_size associativity : Nat) :
    Option DirectMappedCache :=
  if cache_size = 0 ∨ line_size = 0 ∨ associativity = 0 then none
  else if cache_size % (line_size * associativity) ≠ 0 then none
  else
    let num_sets := cache_size / (line_size * associativity)
    if ¬ (is_power_of_two line_size ∧ is_power_of_two num_sets) then none
    else some
      { cache_size := cache_size
        line_size := line_size
        associativity := associativity
        num_sets := num_sets
        offset_bits := floor_log2 line_size
        index_bits := floor_log2 num_sets
        hits := 0
        misses := 0
        timestamp := 0
        sets := List.replicate num_sets (List.replicate associativity CacheLine.init) }

/-- From `DirectMappedCache::decode_address`. -/
def DirectMappedCache.decode_address (c : DirectMappedCache) (pa : Nat) :
    CacheAddress :=
  let offset_mask := (1 <<< c.offset_bits) - 1
  let index_mask := (1 <<< c.index_bits) - 1
  { offset := pa &&& offset_mask
    index := (pa >>> c.offset_bits) &&& index_mask
    tag := pa >>> (c.offset_bits + c.index_bits) }

/-- Index of the first invalid line in a set, from the first victim-search
loop shared by `access` and `fill`. -/
def first_invalid_idx : List CacheLine → Option Nat
  | [] => none
  | l :: ls =>
    if l.valid then (first_invalid_idx ls).map (fun i => i + 1) else some 0

/-- Index of the line with the smallest `inserted_at`, from the second
victim-search loop: `victim = &set[0]` then scan for strictly smaller
timestamps. -/
def min_inserted_idx (set : List CacheLine) : Nat :=
  match set with
  | [] => 0
  | v0 :: _ =>
    (set.enum.foldl
      (fun best p => if p.2.inserted_at < best.2.inserted_at then p else best)
      (0, v0)).1

/-- Victim choice and installation shared verbatim by the miss path of
`access` and by `fill`: first invalid line, else FIFO-by-insertion. -/
def victim_install (set : List CacheLine) (tag ts : Nat) : List CacheLine :=
  let vi :=
    match first_invalid_idx set with
    | some i => i
    | none => min_inserted_idx set
  set.set vi { valid := true, tag := tag, inserted_at := ts }

/-- The hit-scan loop of `access`: a line with `valid` true and matching
tag. -/
def hit_in_set (set : List CacheLine) (tag : Nat) : Bool :=
  set.any (fun l => l.valid && l.tag == tag)

/-- From `DirectMappedCache::access`. -/
def DirectMappedCache.access (c : DirectMappedCache) (pa : Nat) :
    Bool × DirectMappedCache :=
  let addr := c.decode_address pa
  let set := c.sets.getD addr.index []
  if hit_in_set set addr.tag then
    (true, { c with hits := c.hits + 1 })
  else
    let newset := victim_install set addr.tag c.timestamp
    (false, { c with
                misses := c.misses + 1
                sets := c.sets.set addr.index newset
                timestamp := c.timestamp + 1 })

/-- From `DirectMappedCache::fill`: victim selection and installation
without touching the counters. -/
def DirectMappedCache.fill (c : DirectMappedCache) (pa : Nat) :
    DirectMappedCache :=
  let addr := c.decode_address pa
  let set := c.sets.getD addr.index []
  let newset := victim_install set addr.tag c.timestamp
  { c with
      sets := c.sets.set addr.index newset
      timestamp := c.timestamp + 1 }

/-! ## Cache hierarchy (`CacheHierarchy.cpp`) -/

/-- Two composed levels, from class `CacheHierarchy`. -/
structure CacheHierarchy where
  l1 : DirectMappedCache
  l2 : DirectMappedCache
deriving Repr, DecidableEq

/-- From `CacheHierarchy::access`: try L1; on L1 miss try L2; on L2 hit
refill L1 only; on L2 miss fill both levels. -/
def CacheHierarchy.access (h : CacheHierarchy) (pa : Nat) :
    Bool × CacheHierarchy :=
  match h.l1.access pa with
  | (true, l1a) => (true, { h with l1 := l1a })
  | (false, l1a) =>
    match h.l2.access pa with
    | (true, l2a) => (true, { l1 := l1a.fill pa, l2 := l2a })
    | (false, l2a) => (false, { l1 := l1a.fill pa, l2 := l2a.fill pa })

/-- Run a sequence of hierarchy accesses, dropping the returned booleans. -/
def CacheHierarchy.runAccesses (h : CacheHierarchy) (pas : List Nat) :
    CacheHierarchy :=
  pas.foldl (fun s pa => (s.access pa).2) h

/-! ## Virtual memory manager (`VirtualMemoryManager.cpp`) -/

inductive PageReplacementPolicy where
  | FIFO
  | LRU
deriving Repr, DecidableEq

/-- From `struct PageTableEntry`; the default constructor initialises
`valid=false, frame_number=0, loaded_at=0`. -/
structure PageTableEntry where
  valid : Bool
  frame_number : Nat
  loaded_at : Nat
deriving Repr, DecidableEq

def PageTableEntry.init : PageTableEntry := ⟨false, 0, 0⟩

/-- State of class `VirtualMemoryManager`. -/
structure VirtualMemoryManager where
  timestamp : Nat
  page_size : Nat
  offset_bits : Nat
  page_table : List PageTableEntry
  frame_free : List Bool
  page_faults : Nat
  replacement_policy : PageReplacementPolicy
deriving Repr, DecidableEq

/-- The `VirtualMemoryManager` constructor; `none` where the C++
constructor throws on a non-power-of-two page size. -/
def mkVMM (num_virtual_pages num_physical_frames page_size_bytes : Nat)
    (policy : PageReplacementPolicy) : Option VirtualMemoryManager :=
  if ¬ is_power_of_two page_size_bytes then none
  else some
    { timestamp := 0
      page_size := page_size_bytes
      offset_bits := floor_log2 page_size_bytes
      page_table := List.replicate num_virtual_pages PageTableEntry.init
      frame_free := List.replicate num_physical_frames true
      page_faults := 0
      replacement_policy := policy }

/-- From `VirtualMemoryManager::decode_vpn`. -/
def VirtualMemoryManager.decode_vpn (s : VirtualMemoryManager) (va : Nat) :
    Nat :=
  va >>> s.offset_bits

/-- From `VirtualMemoryManager::decode_offset`. -/
def VirtualMemoryManager.decode_offset (s : VirtualMemoryManager) (va : Nat) :
    Nat :=
  va &&& ((1 <<< s.offset_bits) - 1)

/-- The free-frame scan inside `translate`: index of the lowest free
frame. -/
def find_free_frame : List Bool → Option Nat
  | [] => none
  | b :: bs =>
    if b then some 0 else (find_free_frame bs).map (fun i => i + 1)

/-- From `find_fifo_victim_page`: index of the valid page-table entry
with the smallest `loaded_at` (strict comparison keeps the earliest
index); `none` mirrors the `size_t(-1)` sentinel when no entry is
valid. -/
def find_fifo_victim_page (table : List PageTableEntry) : Option Nat :=
  (table.enum.foldl
    (fun best p =>
      match best with
      | none => if p.2.valid then some p else none
      | some b =>
        if p.2.valid ∧ p.2.loaded_at < b.2.loaded_at then some p else best)
    none).map (fun p => p.1)

/-- From `find_lru_victim_page`: textually the same scan as the FIFO
victim search. -/
def find_lru_victim_page (table : List PageTableEntry) : Option Nat :=
  (table.enum.foldl
    (fun best p =>
      match best with
      | none => if p.2.valid then some p else none
      | some b =>
        if p.2.valid ∧ p.2.loaded_at < b.2.loaded_at then some p else best)
    none).map (fun p => p.1)

/-- From `VirtualMemoryManager::translate`.  `none` models both the
out-of-range exception and the undefined behaviour reached when no
page-table entry is valid yet no frame is free (the C++ would index with
the `size_t(-1)` sentinel).  On a page fault the `loaded_at` stamp is
taken verbatim from the source: it is written under FIFO, and under LRU
only when the local `page_fault` flag is false, which at that point it
never is. -/
def VirtualMemoryManager.translate (s : VirtualMemoryManager) (va : Nat) :
    Option (Nat × VirtualMemoryManager) :=
  let vpn := s.decode_vpn va
  let offset := s.decode_offset va
  if h : vpn ≥ s.page_table.length then none
  else
    let pte := s.page_table.get ⟨vpn, by omega⟩
    if pte.valid then
      some ((pte.frame_number * s.page_size + offset) % 2 ^ 64, s)
    else
      let page_fault := true
      let s1 := { s with page_faults := s.page_faults + 1 }
      let frameInfo : Option (Nat × List Bool × List PageTableEntry) :=
        match find_free_frame s1.frame_free with
        | some i => some (i, s1.frame_free.set i false, s1.page_table)
        | none =>
          let victim? :=
            if s1.replacement_policy = PageReplacementPolicy.FIFO then
              find_fifo_victim_page s1.page_table
            else
              find_lru_victim_page s1.page_table
          match victim? with
          | none => none
          | some victim_vpn =>
            let victim_pte := (s1.page_table.getD victim_vpn PageTableEntry.init)
            some (victim_pte.frame_number, s1.frame_free,
              s1.page_table.set victim_vpn { victim_pte with valid := false })
      match frameInfo with
      | none => none
      | some (frame, frames2, table2) =>
        let pte1 := { pte with frame_number := frame, valid := true }
        let stamped :=
          if s1.replacement_policy = PageReplacementPolicy.FIFO then
            ({ pte1 with loaded_at := s1.timestamp }, s1.timestamp + 1)
          else if page_fault = false ∧
              s1.replacement_policy = PageReplacementPolicy.LRU then
            ({ pte1 with loaded_at := s1.timestamp }, s1.timestamp + 1)
          else
            (pte1, s1.timestamp)
        let s2 := { s1 with
                      page_table := table2.set vpn stamped.1
                      frame_free := frames2
                      timestamp := stamped.2 }
        some ((stamped.1.frame_number * s2.page_size + offset) % 2 ^ 64, s2)

/-- Run a sequence of translations, keeping the state across calls (a
failed call leaves the state unchanged, as the thrown exception would). -/
def VirtualMemoryManager.runTranslations (s : VirtualMemoryManager)
    (vas : List Nat) : VirtualMemoryManager :=
  vas.foldl
    (fun st va =>
      match st.translate va with
      | some (_, st2) => st2
      | none => st)
    s

/-! ## Free-list allocator (`PhysicalMemory.cpp`) -/

/-- From `struct MemoryBlock`; `id` is a C++ `int`, `-1` on free blocks. -/
structure MemoryBlock where
  start : Nat
  size : Nat
  free : Bool
  id : Int
deriving Repr, DecidableEq

/-- State of class `PhysicalMemory`: the ordered block list and the id
counter. -/
structure PhysicalMemory where
  total_size : Nat
  blocks : List MemoryBlock
  next_id : Int
deriving Repr, DecidableEq

/-- The `PhysicalMemory` constructor: one free block spanning the arena,
`next_id_ = 1`. -/
def mkPhysicalMemory (total_size : Nat) : PhysicalMemory :=
  { total_size := total_size
    blocks := [{ start := 0, size := total_size, free := true, id := -1 }]
    next_id := 1 }

/-- The search predicate of `free_block`: `!it->free && it->id == id`. -/
def free_target (b : MemoryBlock) (id : Int) : Bool :=
  !b.free && b.id == id

/-- The merge-with-successor step of `free_block`. -/
def merge_next (b : MemoryBlock) (rest : List MemoryBlock) :
    List MemoryBlock :=
  match rest with
  | n :: rest2 =>
    if n.free then { b with size := b.size + n.size } :: rest2 else b :: rest
  | [] => [b]

/-- The scan of `free_block` beyond the first block, carrying the
predecessor so that the merge-with-previous step can be applied. -/
def free_scan (prev : MemoryBlock) : List MemoryBlock → Int → List MemoryBlock
  | [], _ => [prev]
  | n :: rest, id =>
    if free_target n id then
      if prev.free then
        merge_next { prev with size := prev.size + n.size } rest
      else
        prev :: merge_next { n with free := true, id := -1 } rest
    else
      prev :: free_scan n rest id

/-- From `PhysicalMemory::free_block`: mark the unique allocated block
with this id free, merge with a free predecessor, then with a free
successor; unknown ids are a no-op. -/
def PhysicalMemory.free_block (s : PhysicalMemory) (id : Int) :
    PhysicalMemory :=
  { s with blocks :=
      match s.blocks with
      | [] => []
      | b :: rest =>
        if free_target b id then
          merge_next { b with free := true, id := -1 } rest
        else free_scan b rest id }

/-- From `PhysicalMemory::allocate_from_block`, acting at list index `i`:
exact fit marks the block allocated, otherwise a new allocated block of
the requested size is inserted before the shrunk remainder. -/
def alloc_at (blocks : List MemoryBlock) (i : Nat) (size : Nat)
    (allocated_id : Int) : List MemoryBlock :=
  match blocks, i with
  | [], _ => []
  | b :: rest, 0 =>
    if b.size = size then
      { b with free := false, id := allocated_id } :: rest
    else
      { start := b.start, size := size, free := false, id := allocated_id } ::
        { b with start := b.start + size, size := b.size - size } :: rest
  | b :: rest, i + 1 => b :: alloc_at rest i size allocated_id

/-- The scan of `allocate_first_fit`: index of the first free block with
`size >= requested`. -/
def first_fit_idx (blocks : List MemoryBlock) (size : Nat) : Option Nat :=
  match blocks with
  | [] => none
  | b :: rest =>
    if b.free = true ∧ size ≤ b.size then some 0
    else (first_fit_idx rest size).map (fun i => i + 1)

/-- One step of the `allocate_best_fit` scan: keep the earliest free
block whose size fits and is strictly smaller than the best so far. -/
def best_fit_step (size : Nat) (best : Option (Nat × MemoryBlock))
    (p : Nat × MemoryBlock) : Option (Nat × MemoryBlock) :=
  if p.2.free = true ∧ size ≤ p.2.size then
    match best with
    | none => some p
    | some b => if p.2.size < b.2.size then some p else best
  else best

/-- The scan of `allocate_best_fit`. -/
def best_fit_idx (blocks : List MemoryBlock) (size : Nat) : Option Nat :=
  (blocks.enum.foldl (best_fit_step size) none).map (fun p => p.1)

/-- One step of the `allocate_worst_fit` scan: keep the earliest free
block whose size fits and is strictly larger than the worst so far. -/
def worst_fit_step (size : Nat) (best : Option (Nat × MemoryBlock))
    (p : Nat × MemoryBlock) : Option (Nat × MemoryBlock) :=
  if p.2.free = true ∧ size ≤ p.2.size then
    match best with
    | none => some p
    | some b => if b.2.size < p.2.size then some p else best
  else best

/-- The scan of `allocate_worst_fit`. -/
def worst_fit_idx (blocks : List MemoryBlock) (size : Nat) : Option Nat :=
  (blocks.enum.foldl (worst_fit_step size) none).map (fun p => p.1)

/-- From `PhysicalMemory::allocate_first_fit`; `-1` signals failure. -/
def PhysicalMemory.allocate_first_fit (s : PhysicalMemory) (size : Nat) :
    Int × PhysicalMemory :=
  match first_fit_idx s.blocks size with
  | some i =>
    (s.next_id, { s with
                    blocks := alloc_at s.blocks i size s.next_id
                    next_id := s.next_id + 1 })
  | none => (-1, s)

/-- From `PhysicalMemory::allocate_best_fit`. -/
def PhysicalMemory.allocate_best_fit (s : PhysicalMemory) (size : Nat) :
    Int × PhysicalMemory :=
  match best_fit_idx s.blocks size with
  | some i =>
    (s.next_id, { s with
                    blocks := alloc_at s.blocks i size s.next_id
                    next_id := s.next_id + 1 })
  | none => (-1, s)

/-- From `PhysicalMemory::allocate_worst_fit`. -/
def PhysicalMemory.allocate_worst_fit (s : PhysicalMemory) (size : Nat) :
    Int × PhysicalMemory :=
  match worst_fit_idx s.blocks size with
  | some i =>
    (s.next_id, { s with
                    blocks := alloc_at s.blocks i size s.next_id
                    next_id := s.next_id + 1 })
  | none => (-1, s)

/-- From `PhysicalMemory::used_memory`. -/
def PhysicalMemory.used_memory (s : PhysicalMemory) : Nat :=
  (s.blocks.filter (fun b => !b.free)).foldl (fun acc b => acc + b.size) 0

/-- From `PhysicalMemory::largest_free_block`. -/
def PhysicalMemory.largest_free_block (s : PhysicalMemory) : Nat :=
  s.blocks.foldl
    (fun largest b =>
      if b.free = true ∧ largest < b.size then b.size else largest) 0

/-- One caller-visible operation on the free-list allocator; the three
allocation strategies appear as separate entry points in the source. -/
inductive PMOp where
  | allocFirst (size : Nat)
  | allocBest (size : Nat)
  | allocWorst (size : Nat)
  | freeBlock (id : Int)
deriving Repr, DecidableEq

def PhysicalMemory.step (s : PhysicalMemory) : PMOp → PhysicalMemory
  | PMOp.allocFirst size => (s.allocate_first_fit size).2
  | PMOp.allocBest size => (s.allocate_best_fit size).2
  | PMOp.allocWorst size => (s.allocate_worst_fit size).2
  | PMOp.freeBlock id => s.free_block id

def PhysicalMemory.run (s : PhysicalMemory) (ops : List PMOp) :
    PhysicalMemory :=
  ops.foldl PhysicalMemory.step s

/-! ## Buddy allocator (`BuddyAllocator.cpp`) -/

/-- Fuel-driven version of the loop in `BuddyAllocator::log2_exact`:
`k = 0; while ((1 << k) < x) ++k; return k`.  The loop body runs fewer
than `x` times, so fuel `x` suffices. -/
def log2_exact_fuel : Nat → Nat → Nat → Nat
  | 0, _, k => k
  | fuel + 1, x, k =>
    if (1 <<< k) < x then log2_exact_fuel fuel x (k + 1) else k

/-- From `BuddyAllocator::log2_exact`: the least `k` with `2 ^ k >= x`
(the exact base-two logarithm on the power-of-two inputs the program
uses). -/
def log2_exact (x : Nat) : Nat :=
  log2_exact_fuel x x 0

/-- From the file-static `next_power_of_two`: the bit smear returns `1`
for `0` and otherwise the least power of two greater than or equal to
`x`, which is `2 ^ log2_exact x` in both cases. -/
def next_power_of_two (x : Nat) : Nat :=
  1 <<< log2_exact x

/-- State of class `BuddyAllocator`: per-order free lists (index =
order) and the allocated map as an association list keyed by address. -/
structure BuddyAllocator where
  total_memory : Nat
  max_order : Nat
  free_lists : List (List Nat)
  allocated_blocks : List (Nat × Nat)
deriving Repr, DecidableEq

/-- The `BuddyAllocator` constructor: rejects a non-power-of-two total,
then starts with the whole arena as one free block of `max_order`. -/
def mkBuddy (total_memory : Nat) : Option BuddyAllocator :=
  if ¬ is_power_of_two total_memory then none
  else
    let max_order := log2_exact total_memory
    some
      { total_memory := total_memory
        max_order := max_order
        free_lists := (List.replicate (max_order + 1) ([] : List Nat)).set
          max_order [0]
        allocated_blocks := [] }

/-- The order-search loop of `allocate_buddy`: first order at or above
`k` (up to `max_order`) whose free list is non-empty. -/
def first_nonempty_from (fl : List (List Nat)) (max_order k : Nat) :
    Option Nat :=
  if k > max_order then none
  else if (fl.getD k []).isEmpty then first_nonempty_from fl max_order (k + 1)
  else some k
termination_by max_order + 1 - k

/-- The split loop of `allocate_buddy`: while above the target order,
descend one order and push the upper half onto that order's free list. -/
def split_down (fl : List (List Nat)) (addr current target : Nat) :
    List (List Nat) :=
  if current ≤ target then fl
  else
    let co := current - 1
    let buddy_addr := addr + (1 <<< co)
    split_down (fl.set co (buddy_addr :: fl.getD co [])) addr co target
termination_by current - target

/-- From `BuddyAllocator::allocate_buddy`; `none` models the
`size_t(-1)` failure sentinel, returned before any state is touched. -/
def BuddyAllocator.allocate_buddy (s : BuddyAllocator) (size : Nat) :
    Option Nat × BuddyAllocator :=
  if size = 0 ∨ size > s.total_memory then (none, s)
  else
    let rounded_size := next_power_of_two size
    let target_order := log2_exact rounded_size
    if target_order > s.max_order then (none, s)
    else
      match first_nonempty_from s.free_lists s.max_order target_order with
      | none => (none, s)
      | some current_order =>
        let addr := (s.free_lists.getD current_order []).headD 0
        let fl1 := s.free_lists.set current_order
          (s.free_lists.getD current_order []).tail
        let fl2 := split_down fl1 addr current_order target_order
        (some addr,
          { s with
              free_lists := fl2
              allocated_blocks := (addr, target_order) :: s.allocated_blocks })

/-- The coalescing loop of `free_buddy`: while below `max_order` and the
buddy is on its order's free list, remove the buddy, keep the lower of
the two addresses and go one order up.  Returns the final address, the
final order, and the updated free lists. -/
def coalesce_up (fl : List (List Nat)) (max_order addr order : Nat) :
    Nat × Nat × List (List Nat) :=
  if order ≥ max_order then (addr, order, fl)
  else
    let buddy_addr := addr ^^^ (1 <<< order)
    let lst := fl.getD order []
    if buddy_addr ∈ lst then
      coalesce_up (fl.set order (lst.erase buddy_addr)) max_order
        (min addr buddy_addr) (order + 1)
    else (addr, order, fl)
termination_by max_order - order

/-- Lookup in the allocated map, from `allocated_blocks_.find(addr)`. -/
def lookup_alloc (l : List (Nat × Nat)) (addr : Nat) : Option Nat :=
  (l.find? (fun p => p.1 == addr)).map (fun p => p.2)

/-- From `BuddyAllocator::free_buddy`: unknown addresses are a no-op;
otherwise remove the map entry, coalesce upwards and push the final
block onto its order's free list. -/
def BuddyAllocator.free_buddy (s : BuddyAllocator) (addr : Nat) :
    BuddyAllocator :=
  match lookup_alloc s.allocated_blocks addr with
  | none => s
  | some order =>
    let ab := s.allocated_blocks.eraseP (fun p => p.1 == addr)
    let r := coalesce_up s.free_lists s.max_order addr order
    { s with
        allocated_blocks := ab
        free_lists := r.2.2.set r.2.1 (r.1 :: r.2.2.getD r.2.1 []) }

/-- From `BuddyAllocator::allocated_memory`. -/
def BuddyAllocator.allocated_memory (s : BuddyAllocator) : Nat :=
  s.allocated_blocks.foldl (fun acc p => acc + (1 <<< p.2)) 0

/-- The descending scan of `BuddyAllocator::largest_free_block`. -/
def largest_free_go (fl : List (List Nat)) : Nat → Nat
  | 0 => if (fl.getD 0 []).isEmpty then 0 else 1
  | k + 1 =>
    if (fl.getD (k + 1) []).isEmpty then largest_free_go fl k
    else 1 <<< (k + 1)

/-- From `BuddyAllocator::largest_free_block`. -/
def BuddyAllocator.largest_free_block (s : BuddyAllocator) : Nat :=
  largest_free_go s.free_lists s.max_order

/-- One caller-visible operation on the buddy allocator. -/
inductive BuddyOp where
  | alloc (size : Nat)
  | free (addr : Nat)
deriving Repr, DecidableEq

def BuddyAllocator.step (s : BuddyAllocator) : BuddyOp → BuddyAllocator
  | BuddyOp.alloc size => (s.allocate_buddy size).2
  | BuddyOp.free addr => s.free_buddy addr

def BuddyAllocator.run (s : BuddyAllocator) (ops : List BuddyOp) :
    BuddyAllocator :=
  ops.foldl BuddyAllocator.step s

/-- Number of valid lines holding a given tag in one cache set (the
quantity constrained by the fill-idempotence property). -/
def count_valid_tag (set : List CacheLine) (tag : Nat) : Nat :=
  (set.filter (fun l => l.valid && l.tag == tag)).length

/-- Contiguous coverage of the arena: each block starts where the
previous one ended, the first at `pos`, and the last ends at `total`
(this encodes address order, absence of gaps and overlap, and that the
sizes sum to the arena size). -/
def contigFrom (total : Nat) : Nat → List MemoryBlock → Prop
  | pos, [] => pos = total
  | pos, b :: l => b.start = pos ∧ contigFrom total (pos + b.size) l

/-- No two adjacent blocks are both free. -/
def noAdjFree : List MemoryBlock → Prop
  | [] => True
  | [_] => True
  | a :: b :: l => ¬(a.free = true ∧ b.free = true) ∧ noAdjFree (b :: l)

/-- The ids of the allocated blocks, in address order. -/
def allocIds (l : List MemoryBlock) : List Int :=
  (l.filter fun b => !b.free).map MemoryBlock.id

/-- The free-list allocator invariant: contiguous coverage, no adjacent
free blocks, distinct allocated ids, and all allocated ids below the id
counter. -/
def PMInv (s : PhysicalMemory) : Prop :=
  contigFrom s.total_size 0 s.blocks ∧
  noAdjFree s.blocks ∧
  (allocIds s.blocks).Nodup ∧
  ∀ x ∈ allocIds s.blocks, x < s.next_id

/-- Entries of one buddy free list, tagged with their order. -/
def orderEntries (k : Nat) (l : List Nat) : List (Nat × Nat) :=
  l.map (fun a => (a, k))

/-- All free blocks of a buddy free-list table, as (address, order)
pairs, the table's first list having order `n`. -/
def freeRegionsFrom (n : Nat) : List (List Nat) → List (Nat × Nat)
  | [] => []
  | l :: fl => orderEntries n l ++ freeRegionsFrom (n + 1) fl

def freeRegions (fl : List (List Nat)) : List (Nat × Nat) :=
  freeRegionsFrom 0 fl

/-- The address interval occupied by a buddy block (address, order). -/
def blockIval (p : Nat × Nat) : Finset Nat :=
  Finset.Ico p.1 (p.1 + 2 ^ p.2)

/-- Well-formed partition of the arena `[0, total)` into buddy blocks:
every block is aligned to its size and in range, blocks are pairwise
disjoint, and the sizes sum to the whole arena. -/
def RegWf (total : Nat) (rs : List (Nat × Nat)) : Prop :=
  (∀ p ∈ rs, 2 ^ p.2 ∣ p.1 ∧ p.1 + 2 ^ p.2 ≤ total) ∧
  rs.Pairwise (fun p q => Disjoint (blockIval p) (blockIval q)) ∧
  ((rs.map fun p => 2 ^ p.2).sum = total)

/-- No two free addresses at the same order are buddies
(`check_no_free_buddy_pairs`). -/
def noBuddyPairs (fl : List (List Nat)) : Prop :=
  ∀ k, ∀ a ∈ fl.getD k [], (a ^^^ (1 <<< k)) ∉ fl.getD k []

/-- The buddy-allocator invariant: power-of-two arena, one free list per
order, the free and allocated blocks partition the arena, and no free
buddy pairs coexist. -/
def BuddyInv (s : BuddyAllocator) : Prop :=
  s.total_memory = 2 ^ s.max_order ∧
  s.free_lists.length = s.max_order + 1 ∧
  RegWf s.total_memory (freeRegions s.free_lists ++ s.allocated_blocks) ∧
  noBuddyPairs s.free_lists

/-- The free halves produced by the split loop of `allocate_buddy`:
one block `(addr + 2 ^ j, j)` for each order `j` from `target` up to
`current - 1`. -/
def splitEntries (addr target current : Nat) : List (Nat × Nat) :=
  if current ≤ target then []
  else (addr + 2 ^ (current - 1), current - 1) ::
    splitEntries addr target (current - 1)
termination_by current - target

/-- Concrete associativity-1 cache used to instantiate the fill
idempotence theorem: the result of `DirectMappedCache(1024, 64, 1)`. -/
def cacheAssoc1 : DirectMappedCache :=
  { cache_size := 1024
    line_size := 64
    associativity := 1
    num_sets := 16
    offset_bits := 6
    index_bits := 4
    hits := 0
    misses := 0
    timestamp := 0
    sets := List.replicate 16 (List.replicate 1 CacheLine.init) }

/-- Concrete manager used to instantiate the offset-preservation
theorem: the result of `VMM(8, 4, 4096, FIFO)`. -/
def vmmW : VirtualMemoryManager :=
  { timestamp := 0
    page_size := 4096
    offset_bits := 12
    page_table := List.replicate 8 PageTableEntry.init
    frame_free := List.replicate 4 true
    page_faults := 0
    replacement_policy := PageReplacementPolicy.FIFO }

/-- State of `vmmW` after translating virtual address 4660 (vpn 1). -/
def vmmW2 : VirtualMemoryManager :=
  { timestamp := 1
    page_size := 4096
    offset_bits := 12
    page_table :=
      PageTableEntry.init ::
        { valid := true, frame_number := 0, loaded_at := 0 } ::
          List.replicate 6 PageTableEntry.init
    frame_free := false :: List.replicate 3 true
    page_faults := 1
    replacement_policy := PageReplacementPolicy.FIFO }

/-- Concrete L1 for the hierarchy witness: `Cache(256, 64, 1)`. -/
def cacheL1W : DirectMappedCache :=
  { cache_size := 256
    line_size := 64
    associativity := 1
    num_sets := 4
    offset_bits := 6
    index_bits := 2
    hits := 0
    misses := 0
    timestamp := 0
    sets := List.replicate 4 (List.replicate 1 CacheLine.init) }

/-- Concrete L2 for the hierarchy witness: `Cache(1024, 64, 2)`. -/
def cacheL2W : DirectMappedCache :=
  { cache_size := 1024
    line_size := 64
    associativity := 2
    num_sets := 8
    offset_bits := 6
    index_bits := 3
    hits := 0
    misses := 0
    timestamp := 0
    sets := List.replicate 8 (List.replicate 2 CacheLine.init) }

/-- Concrete buddy allocator used in witnesses: `BuddyAllocator(8)`. -/
def buddyW : BuddyAllocator :=
  { total_memory := 8
    max_order := 3
    free_lists := [[], [], [], [0]]
    allocated_blocks := [] }

/-- Block list of the best-fit scenario just before the final
allocation: the 100-byte hole, the 500-byte allocation, the coalesced
424-byte hole. -/
def blocksW : List MemoryBlock :=
  [{ start := 0, size := 100, free := true, id := -1 },
   { start := 100, size := 500, free := false, id := 2 },
   { start := 600, size := 424, free := true, id := -1 }]

/-- Outcome of a zero-size allocation: fresh id, advanced counter,
unchanged totals and used memory, and the block list either gains a
zero-size allocated block before the selected free block (which is
itself unchanged) or, when the selected free block has size zero, that
block is marked allocated in place. -/
def alloc_zero_result (s : PhysicalMemory) (r : Int × PhysicalMemory) :
    Prop :=
  r.1 = s.next_id ∧ r.2.next_id = s.next_id + 1 ∧
  r.2.total_size = s.total_size ∧
  r.2.used_memory = s.used_memory ∧
  ∃ i, ∃ hi : i < s.blocks.length, (s.blocks.get ⟨i, hi⟩).free = true ∧
    (0 < (s.blocks.get ⟨i, hi⟩).size →
      r.2.blocks = s.blocks.insertIdx i
        { start := (s.blocks.get ⟨i, hi⟩).start, size := 0, free := false,
          id := s.next_id }) ∧
    ((s.blocks.get ⟨i, hi⟩).size = 0 →
      r.2.blocks = s.blocks.set i
        { s.blocks.get ⟨i, hi⟩ with free := false, id := s.next_id })

/-- Concrete operation sequence for the buddy round-trip witness. -/
def opsW : List BuddyOp :=
  [BuddyOp.alloc 2, BuddyOp.alloc 3, BuddyOp.free 0, BuddyOp.alloc 1]

/-! ## Helper lemmas -/

theorem log2_fuel_eq_log2 : ∀ fuel n, n ≤ fuel → log2_fuel fuel n = Nat.log2 n := by
  intro fuel
  induction fuel with
  | zero =>
    intro n hn
    interval_cases n
    simp [log2_fuel, Nat.log2]
  | succ fuel ih =>
    intro n hn
    by_cases h2 : 2 ≤ n
    · have hdiv : n / 2 ≤ fuel := by
        have := Nat.div_lt_self (by omega : 0 < n) (by omega : 1 < 2)
        omega
      rw [log2_fuel, if_pos h2, ih _ hdiv]
      conv_rhs => rw [Nat.log2]
      rw [if_pos h2]
    · rw [log2_fuel, if_neg h2]
      conv_rhs => rw [Nat.log2]
      rw [if_neg h2]

theorem floor_log2_eq_log2 (n : Nat) : floor_log2 n = Nat.log2 n :=
  log2_fuel_eq_log2 n n le_rfl

theorem is_power_of_two_ne_zero {n : Nat} (h : is_power_of_two n = true) :
    n ≠ 0 := by
  simp only [is_power_of_two, Bool.and_eq_true, bne_iff_ne, ne_eq] at h
  exact h.1

theorem getD_replicate_of_lt {α : Type} (a d : α) {n i : Nat} (h : i < n) :
    (List.replicate n a).getD i d = a := by
  rw [List.getD_eq_getElem?_getD, List.getElem?_replicate, if_pos h]
  rfl

theorem getD_set_self {α : Type} (l : List α) (i : Nat) (x d : α)
    (h : i < l.length) : (l.set i x).getD i d = x := by
  rw [List.getD_eq_getElem?_getD, List.getElem?_set_self]
  · simp [h]
  · exact h

theorem victim_install_singleton (l : CacheLine) (tag ts : Nat) :
    victim_install [l] tag ts = [{ valid := true, tag := tag, inserted_at := ts }] := by
  cases hv : l.valid <;>
    simp [victim_install, first_invalid_idx, min_inserted_idx, hv, List.enum]

/-! ## Claim theorems: virtual memory -/

/-- C7: with `VMM(8 pages, 4 frames, page size 4096, FIFO)`, translating
one address in each of the vpns 0,1,2,3,4 in that order yields exactly
five page faults and leaves vpn 0 evicted (its entry invalid), and a
subsequent translation of vpn 0 yields a sixth page fault. -/
theorem vmm_fifo_eviction_scenario :
    (mkVMM 8 4 4096 PageReplacementPolicy.FIFO).map
      (fun s =>
        ((s.runTranslations [0, 4096, 8192, 12288, 16384]).page_faults,
         ((s.runTranslations [0, 4096, 8192, 12288, 16384]).page_table.getD 0
            PageTableEntry.init).valid,
         (s.runTranslations [0, 4096, 8192, 12288, 16384, 0]).page_faults)) =
      some (5, false, 6) := by decide

/-- C1 is false of the code: under the LRU policy `loaded_at` is never
written (the guard `!page_fault` in `translate` is false on the only path
that reaches it), so the LRU victim scan picks the lowest-indexed valid
page rather than the FIFO-oldest page.  With 2 frames and the vpn
sequence 1,0,2,1 the FIFO manager faults 4 times while the LRU manager
faults 3 times, and the final translation of vpn 1 returns physical
address 4096 under FIFO but 0 under LRU. -/
theorem vmm_lru_not_equivalent_to_fifo :
    ((mkVMM 8 2 4096 PageReplacementPolicy.FIFO).map
        (fun s => (s.runTranslations [4096, 0, 8192, 4096]).page_faults) =
      some 4) ∧
    ((mkVMM 8 2 4096 PageReplacementPolicy.LRU).map
        (fun s => (s.runTranslations [4096, 0, 8192, 4096]).page_faults) =
      some 3) ∧
    ((mkVMM 8 2 4096 PageReplacementPolicy.FIFO).map
        (fun s =>
          ((s.runTranslations [4096, 0, 8192]).translate 4096).map
            (fun p => p.1)) =
      some (some 4096)) ∧
    ((mkVMM 8 2 4096 PageReplacementPolicy.LRU).map
        (fun s =>
          ((s.runTranslations [4096, 0, 8192]).translate 4096).map
            (fun p => p.1)) =
      some (some 0)) := by decide

/-! ## Claim theorems: cache fill idempotence -/

/-- C2 is false of the code for associativity at least 2: `fill` never
checks for an already-resident copy of the tag, so with `Cache(128, 64, 2)`
(one set, two ways) two successive fills of address 0 leave two valid
lines with tag 0 in set 0. -/
theorem cache_fill_double_tag_assoc2 :
    (mkCache 128 64 2).map
      (fun c => count_valid_tag (((c.fill 0).fill 0).sets.getD 0 []) 0) =
      some 2 := by decide

/-- Projections of `fill` that do not change: the geometry fields. -/
theorem fill_decode_eq (c : DirectMappedCache) (pa q : Nat) :
    (c.fill pa).decode_address q = c.decode_address q := rfl

/-- C2 (amended): for a validly constructed cache level with
associativity 1 (each set a single line), two successive fills of the
same address leave exactly one valid line with that address's tag in the
selected set.  (The unamended claim, over every valid associativity,
fails for associativity at least 2.) -/
theorem cache_fill_idempotent_assoc1 (cs ls pa : Nat)
    (c : DirectMappedCache) (hc : mkCache cs ls 1 = some c) :
    count_valid_tag
      (((c.fill pa).fill pa).sets.getD ((c.decode_address pa).index) [])
      ((c.decode_address pa).tag) = 1 := by
  unfold mkCache at hc
  split at hc
  · exact absurd hc (by simp)
  split at hc
  · exact absurd hc (by simp)
  dsimp only [] at hc
  split at hc
  · exact absurd hc (by simp)
  rename_i hnz hdvd hpow
  rw [not_not] at hpow
  have hc2 := Option.some.inj hc
  subst hc2
  set ns := cs / (ls * 1) with hns
  have hns0 : ns ≠ 0 := is_power_of_two_ne_zero hpow.2
  set idx := (pa >>> floor_log2 ls) &&& ((1 <<< floor_log2 ns) - 1) with hidxdef
  have hidxlt : idx < ns := by
    have h1 : idx = (pa >>> floor_log2 ls) % 2 ^ floor_log2 ns := by
      rw [hidxdef, Nat.shiftLeft_eq, one_mul, Nat.and_pow_two_sub_one_eq_mod]
    have h2 : (pa >>> floor_log2 ls) % 2 ^ floor_log2 ns < 2 ^ floor_log2 ns :=
      Nat.mod_lt _ (Nat.pos_pow_of_pos _ (by omega))
    have h3 : 2 ^ floor_log2 ns ≤ ns := by
      rw [floor_log2_eq_log2]
      exact Nat.log2_self_le hns0
    omega
  have hlen : (List.replicate ns (List.replicate 1 CacheLine.init)).length = ns :=
    List.length_replicate ns _
  have h1 : (List.replicate ns (List.replicate 1 CacheLine.init)).getD idx [] =
      [CacheLine.init] := by
    rw [getD_replicate_of_lt _ _ hidxlt, List.replicate_one]
  simp only [DirectMappedCache.fill, DirectMappedCache.decode_address]
  rw [h1, victim_install_singleton]
  rw [getD_set_self _ _ _ _ (by rw [List.length_set, hlen]; exact hidxlt)]
  rw [getD_set_self _ _ _ _ (by rw [hlen]; exact hidxlt)]
  rw [victim_install_singleton]
  simp [count_valid_tag]

/-- Witness for the amended fill-idempotence theorem at
`Cache(1024, 64, 1)` and address 0. -/
theorem cache_fill_idempotent_assoc1_witness :
    mkCache 1024 64 1 = some cacheAssoc1 ∧
    count_valid_tag
      (((cacheAssoc1.fill 0).fill 0).sets.getD
        ((cacheAssoc1.decode_address 0).index) [])
      ((cacheAssoc1.decode_address 0).tag) = 1 :=
  ⟨by decide, cache_fill_idempotent_assoc1 1024 64 0 cacheAssoc1 (by decide)⟩

/-- Arithmetic core of offset preservation: a physical address built as
frame times page size plus offset, truncated to 64 bits, keeps the
virtual offset modulo a power-of-two page size. -/
theorem pa_mod_page_size (ps ob F off va : Nat) (hps : ps = 2 ^ ob)
    (hob : ob ≤ 64) (hoff : off = va % ps) :
    ((F * ps + off) % 2 ^ 64) % ps = va % ps := by
  have hdvd : ps ∣ 2 ^ 64 := hps ▸ pow_dvd_pow 2 hob
  rw [Nat.mod_mod_of_dvd _ hdvd, Nat.add_comm, Nat.add_mul_mod_self_right,
    hoff, Nat.mod_mod_of_dvd _ dvd_rfl]

/-- The offset decode is the remainder modulo the page size. -/
theorem decode_offset_eq_mod (s : VirtualMemoryManager) (va : Nat)
    (hps : s.page_size = 2 ^ s.offset_bits) :
    s.decode_offset va = va % s.page_size := by
  unfold VirtualMemoryManager.decode_offset
  rw [Nat.shiftLeft_eq, one_mul, Nat.and_pow_two_sub_one_eq_mod, hps]

/-- C4: for a manager whose page size is the power of two recorded by
its `offset_bits` (as every constructed manager), every successful
translation preserves the page offset (`pa mod page_size = va mod
page_size`), and translating an address whose page-table entry at
`decode_vpn va` is valid returns the in-place physical address and
leaves the whole state, in particular the page-fault counter,
unchanged (hence repeated translation returns the same address). -/
theorem vmm_offset_preservation (s : VirtualMemoryManager) (va pa : Nat)
    (s2 : VirtualMemoryManager)
    (hps : s.page_size = 2 ^ s.offset_bits) (hob : s.offset_bits ≤ 64) :
    (s.translate va = some (pa, s2) → pa % s.page_size = va % s.page_size) ∧
    (∀ hlt : s.decode_vpn va < s.page_table.length,
      (s.page_table.get ⟨s.decode_vpn va, hlt⟩).valid = true →
      s.translate va =
        some (((s.page_table.get ⟨s.decode_vpn va, hlt⟩).frame_number *
          s.page_size + s.decode_offset va) % 2 ^ 64, s)) := by
  constructor
  · intro htr
    unfold VirtualMemoryManager.translate at htr
    dsimp only [] at htr
    split at htr
    · exact absurd htr (by simp)
    rename_i hvpn
    split at htr
    · rw [Option.some.injEq, Prod.mk.injEq] at htr
      obtain ⟨hpa, -⟩ := htr
      rw [← hpa]
      exact pa_mod_page_size _ _ _ _ _ hps hob (decode_offset_eq_mod s va hps)
    · split at htr
      · exact absurd htr (by simp)
      rw [Option.some.injEq, Prod.mk.injEq] at htr
      obtain ⟨hpa, -⟩ := htr
      rw [← hpa]
      exact pa_mod_page_size _ _ _ _ _ hps hob (decode_offset_eq_mod s va hps)
  · intro hlt hval
    unfold VirtualMemoryManager.translate
    rw [dif_neg (by omega)]
    dsimp only []
    have hv : (s.page_table.get
        ⟨s.decode_vpn va, by omega⟩).valid = true := hval
    rw [if_pos hv]

/-- Witness for offset preservation: translating 4660 in `vmmW` returns
564, and 564 mod 4096 equals 4660 mod 4096. -/
theorem vmm_offset_preservation_witness :
    (564 : Nat) % vmmW.page_size = 4660 % vmmW.page_size :=
  (vmm_offset_preservation vmmW 4660 564 vmmW2 (by decide) (by decide)).1
    (by decide)

/-! ## Claim theorems: cache hierarchy counters -/

/-- Per-access counter behaviour of one cache level: a hit bumps `hits`,
a miss bumps `misses`, never both. -/
theorem access_counter_step (c : DirectMappedCache) (pa : Nat) :
    ((c.access pa).1 = true →
      (c.access pa).2.misses = c.misses ∧ (c.access pa).2.hits = c.hits + 1) ∧
    ((c.access pa).1 = false →
      (c.access pa).2.misses = c.misses + 1 ∧ (c.access pa).2.hits = c.hits) := by
  unfold DirectMappedCache.access
  dsimp only []
  split <;> simp

/-- `fill` does not touch the hit and miss counters. -/
theorem fill_counter_invariant (c : DirectMappedCache) (pa : Nat) :
    (c.fill pa).hits = c.hits ∧ (c.fill pa).misses = c.misses :=
  ⟨rfl, rfl⟩

/-- One hierarchy access preserves `l2.hits + l2.misses = l1.misses`:
L2 is consulted exactly when L1 misses. -/
theorem hier_counter_step (h : CacheHierarchy) (pa : Nat)
    (hinv : h.l2.hits + h.l2.misses = h.l1.misses) :
    (h.access pa).2.l2.hits + (h.access pa).2.l2.misses =
      (h.access pa).2.l1.misses := by
  unfold CacheHierarchy.access
  rcases h1 : h.l1.access pa with ⟨b1, l1a⟩
  cases b1 with
  | true =>
    have := (access_counter_step h.l1 pa).1 (by rw [h1])
    rw [h1] at this
    dsimp only [] at this
    dsimp only []
    omega
  | false =>
    have hl1 := (access_counter_step h.l1 pa).2 (by rw [h1])
    rw [h1] at hl1
    dsimp only [] at hl1
    rcases h2 : h.l2.access pa with ⟨b2, l2a⟩
    cases b2 with
    | true =>
      have hl2 := (access_counter_step h.l2 pa).1 (by rw [h2])
      rw [h2] at hl2
      dsimp only [] at hl2
      dsimp only []
      rw [(fill_counter_invariant l1a pa).2]
      omega
    | false =>
      have hl2 := (access_counter_step h.l2 pa).2 (by rw [h2])
      rw [h2] at hl2
      dsimp only [] at hl2
      dsimp only []
      rw [(fill_counter_invariant l1a pa).2,
        (fill_counter_invariant l2a pa).1, (fill_counter_invariant l2a pa).2]
      omega

/-- The counter identity is preserved by any access sequence. -/
theorem hier_counter_run (pas : List Nat) :
    ∀ h : CacheHierarchy, h.l2.hits + h.l2.misses = h.l1.misses →
      (h.runAccesses pas).l2.hits + (h.runAccesses pas).l2.misses =
        (h.runAccesses pas).l1.misses := by
  induction pas with
  | nil => intro h hinv; exact hinv
  | cons pa rest ih =>
    intro h hinv
    exact ih (h.access pa).2 (hier_counter_step h pa hinv)

/-- The constructor zeroes the counters. -/
theorem mkCache_counters (cs ls a : Nat) (c : DirectMappedCache)
    (hc : mkCache cs ls a = some c) : c.hits = 0 ∧ c.misses = 0 := by
  unfold mkCache at hc
  split at hc
  · exact absurd hc (by simp)
  split at hc
  · exact absurd hc (by simp)
  dsimp only [] at hc
  split at hc
  · exact absurd hc (by simp)
  have := Option.some.inj hc
  subst this
  exact ⟨rfl, rfl⟩

/-- C3: for a hierarchy built from two validly constructed levels, after
any finite sequence of `access` calls the counters satisfy
`l2_hits + l2_misses = l1_misses`. -/
theorem cache_hierarchy_l2_accesses_eq_l1_misses
    (cs1 ls1 a1 cs2 ls2 a2 : Nat) (c1 c2 : DirectMappedCache)
    (h1 : mkCache cs1 ls1 a1 = some c1) (h2 : mkCache cs2 ls2 a2 = some c2)
    (pas : List Nat) :
    (CacheHierarchy.runAccesses ⟨c1, c2⟩ pas).l2.hits +
      (CacheHierarchy.runAccesses ⟨c1, c2⟩ pas).l2.misses =
      (CacheHierarchy.runAccesses ⟨c1, c2⟩ pas).l1.misses := by
  apply hier_counter_run
  have e1 := mkCache_counters _ _ _ _ h1
  have e2 := mkCache_counters _ _ _ _ h2
  dsimp only []
  omega

/-- Witness for the hierarchy counter identity on the spec's own refill
scenario (addresses 0, 0, 256, 0). -/
theorem cache_hierarchy_l2_accesses_eq_l1_misses_witness :
    (CacheHierarchy.runAccesses ⟨cacheL1W, cacheL2W⟩ [0, 0, 256, 0]).l2.hits +
      (CacheHierarchy.runAccesses ⟨cacheL1W, cacheL2W⟩ [0, 0, 256, 0]).l2.misses =
      (CacheHierarchy.runAccesses ⟨cacheL1W, cacheL2W⟩ [0, 0, 256, 0]).l1.misses :=
  cache_hierarchy_l2_accesses_eq_l1_misses 256 64 1 1024 64 2 cacheL1W cacheL2W
    (by decide) (by decide) [0, 0, 256, 0]

/-! ## Claim theorems: allocation failure -/

/-- The first-fit scan fails exactly when no free block fits. -/
theorem first_fit_idx_none_iff (blocks : List MemoryBlock) (size : Nat) :
    first_fit_idx blocks size = none ↔
      ∀ b ∈ blocks, ¬(b.free = true ∧ size ≤ b.size) := by
  induction blocks with
  | nil => simp [first_fit_idx]
  | cons b bs ih =>
    unfold first_fit_idx
    split
    · rename_i hb
      simp only [List.mem_cons]
      constructor
      · intro h; exact absurd h (by simp)
      · intro h; exact absurd hb (h b (Or.inl rfl))
    · rename_i hb
      rw [Option.map_eq_none', ih]
      constructor
      · intro h c hc
        rcases List.mem_cons.mp hc with rfl | hc2
        · exact hb
        · exact h c hc2
      · intro h c hc
        exact h c (List.mem_cons_of_mem _ hc)

/-- A fold of the best-fit step is `none` exactly when it started from
`none` and saw no eligible block. -/
theorem best_fit_fold_none_iff (size : Nat) (l : List (Nat × MemoryBlock)) :
    ∀ acc, l.foldl (best_fit_step size) acc = none ↔
      acc = none ∧ ∀ p ∈ l, ¬(p.2.free = true ∧ size ≤ p.2.size) := by
  induction l with
  | nil => simp
  | cons q l ih =>
    intro acc
    rw [List.foldl_cons, ih]
    constructor
    · rintro ⟨h1, h2⟩
      unfold best_fit_step at h1
      split at h1
      · rename_i helig
        exfalso
        cases acc with
        | none => simp at h1
        | some b =>
          dsimp only [] at h1
          split at h1 <;> simp at h1
      · rename_i helig
        refine ⟨h1, ?_⟩
        intro p hp
        rcases List.mem_cons.mp hp with rfl | hp2
        · exact helig
        · exact h2 p hp2
    · rintro ⟨h1, h2⟩
      subst h1
      refine ⟨?_, fun p hp => h2 p (List.mem_cons_of_mem _ hp)⟩
      unfold best_fit_step
      rw [if_neg (h2 q (List.mem_cons_self _ _))]

/-- A fold of the worst-fit step is `none` exactly when it started from
`none` and saw no eligible block. -/
theorem worst_fit_fold_none_iff (size : Nat) (l : List (Nat × MemoryBlock)) :
    ∀ acc, l.foldl (worst_fit_step size) acc = none ↔
      acc = none ∧ ∀ p ∈ l, ¬(p.2.free = true ∧ size ≤ p.2.size) := by
  induction l with
  | nil => simp
  | cons q l ih =>
    intro acc
    rw [List.foldl_cons, ih]
    constructor
    · rintro ⟨h1, h2⟩
      unfold worst_fit_step at h1
      split at h1
      · rename_i helig
        exfalso
        cases acc with
        | none => simp at h1
        | some b =>
          dsimp only [] at h1
          split at h1 <;> simp at h1
      · rename_i helig
        refine ⟨h1, ?_⟩
        intro p hp
        rcases List.mem_cons.mp hp with rfl | hp2
        · exact helig
        · exact h2 p hp2
    · rintro ⟨h1, h2⟩
      subst h1
      refine ⟨?_, fun p hp => h2 p (List.mem_cons_of_mem _ hp)⟩
      unfold worst_fit_step
      rw [if_neg (h2 q (List.mem_cons_self _ _))]

/-- A property holds of every entry of `enumFrom` exactly when it holds
of every list element. -/
theorem enumFrom_forall_snd {α : Type} (P : α → Prop) :
    ∀ (bs : List α) (n : Nat),
      (∀ p ∈ List.enumFrom n bs, P p.2) ↔ ∀ b ∈ bs, P b := by
  intro bs
  induction bs with
  | nil => simp
  | cons b bs ih =>
    intro n
    rw [show List.enumFrom n (b :: bs) = (n, b) :: List.enumFrom (n + 1) bs
      from rfl]
    constructor
    · intro h c hc
      rcases List.mem_cons.mp hc with rfl | hc2
      · exact h (n, c) (List.mem_cons_self _ _)
      · exact (ih (n + 1)).mp (fun p hp => h p (List.mem_cons_of_mem _ hp)) c hc2
    · intro h p hp
      rcases List.mem_cons.mp hp with rfl | hp2
      · exact h b (List.mem_cons_self _ _)
      · exact (ih (n + 1)).mpr (fun c hc => h c (List.mem_cons_of_mem _ hc)) p hp2

/-- The order-search loop fails exactly when every free list between the
target order and the maximum order is empty. -/
theorem first_nonempty_from_none_iff (fl : List (List Nat)) (mo : Nat) :
    ∀ d k, mo + 1 - k ≤ d →
      (first_nonempty_from fl mo k = none ↔
        ∀ j, k ≤ j → j ≤ mo → fl.getD j [] = []) := by
  intro d
  induction d with
  | zero =>
    intro k hk
    rw [first_nonempty_from, if_pos (by omega)]
    simp only [true_iff]
    intro j hj1 hj2
    omega
  | succ d ih =>
    intro k hk
    rw [first_nonempty_from]
    by_cases hkm : k > mo
    · rw [if_pos hkm]
      simp only [true_iff]
      intro j hj1 hj2
      omega
    · rw [if_neg hkm]
      by_cases he : (fl.getD k []).isEmpty
      · rw [if_pos he, ih (k + 1) (by omega)]
        constructor
        · intro h j hj1 hj2
          rcases Nat.eq_or_lt_of_le hj1 with rfl | hlt
          · exact List.isEmpty_iff.mp he
          · exact h j hlt hj2
        · intro h j hj1 hj2
          exact h j (by omega) hj2
      · rw [if_neg he]
        constructor
        · intro h
          exact absurd h (by simp)
        · intro h
          exact absurd (h k le_rfl (by omega)) (by
            intro hemp
            rw [hemp] at he
            exact he rfl)

/-- If the order-search loop returns an order, that order is in range
and its free list is non-empty. -/
theorem first_nonempty_from_some (fl : List (List Nat)) (mo : Nat) :
    ∀ d k co, mo + 1 - k ≤ d → first_nonempty_from fl mo k = some co →
      k ≤ co ∧ co ≤ mo ∧ fl.getD co [] ≠ [] := by
  intro d
  induction d with
  | zero =>
    intro k co hk h
    rw [first_nonempty_from, if_pos (by omega)] at h
    exact absurd h (by simp)
  | succ d ih =>
    intro k co hk h
    rw [first_nonempty_from] at h
    by_cases hkm : k > mo
    · rw [if_pos hkm] at h
      exact absurd h (by simp)
    · rw [if_neg hkm] at h
      by_cases he : (fl.getD k []).isEmpty
      · rw [if_pos he] at h
        obtain ⟨h1, h2, h3⟩ := ih (k + 1) co (by omega) h
        exact ⟨by omega, h2, h3⟩
      · rw [if_neg he] at h
        have := Option.some.inj h
        subst this
        refine ⟨le_rfl, by omega, ?_⟩
        intro hemp
        rw [hemp] at he
        exact he rfl

/-- C9: whenever an allocation cannot be satisfied, each allocation
entry point returns its failure sentinel (`-1`, modelled as `none` for
the raw buddy address) and leaves the allocator state (block list, free
lists, allocated map and id counter) exactly unchanged.  For the
free-list strategies, failure happens exactly when no free block is at
least the requested size; for the buddy allocator exactly when the
request is 0, exceeds the total, or no free list at or above the target
order is non-empty. -/
theorem alloc_failure_preserves_state (s : PhysicalMemory)
    (t : BuddyAllocator) (n m : Nat) (hid : 1 ≤ s.next_id) :
    ((s.allocate_first_fit n).1 = -1 ↔
      ∀ b ∈ s.blocks, ¬(b.free = true ∧ n ≤ b.size)) ∧
    ((s.allocate_first_fit n).1 = -1 → (s.allocate_first_fit n).2 = s) ∧
    ((s.allocate_best_fit n).1 = -1 ↔
      ∀ b ∈ s.blocks, ¬(b.free = true ∧ n ≤ b.size)) ∧
    ((s.allocate_best_fit n).1 = -1 → (s.allocate_best_fit n).2 = s) ∧
    ((s.allocate_worst_fit n).1 = -1 ↔
      ∀ b ∈ s.blocks, ¬(b.free = true ∧ n ≤ b.size)) ∧
    ((s.allocate_worst_fit n).1 = -1 → (s.allocate_worst_fit n).2 = s) ∧
    ((t.allocate_buddy m).1 = none ↔
      (m = 0 ∨ t.total_memory < m ∨
        ∀ j, log2_exact (next_power_of_two m) ≤ j → j ≤ t.max_order →
          t.free_lists.getD j [] = [])) ∧
    ((t.allocate_buddy m).1 = none → (t.allocate_buddy m).2 = t) := by
  have hff : (s.allocate_first_fit n).1 = -1 ↔ first_fit_idx s.blocks n = none := by
    unfold PhysicalMemory.allocate_first_fit
    split
    · rename_i i hi
      simp only [hi]
      constructor
      · intro h; omega
      · intro h; exact absurd h (by simp)
    · rename_i hi
      simp [hi]
  have hbf : (s.allocate_best_fit n).1 = -1 ↔ best_fit_idx s.blocks n = none := by
    unfold PhysicalMemory.allocate_best_fit
    split
    · rename_i i hi
      simp only [hi]
      constructor
      · intro h; omega
      · intro h; exact absurd h (by simp)
    · rename_i hi
      simp [hi]
  have hwf : (s.allocate_worst_fit n).1 = -1 ↔ worst_fit_idx s.blocks n = none := by
    unfold PhysicalMemory.allocate_worst_fit
    split
    · rename_i i hi
      simp only [hi]
      constructor
      · intro h; omega
      · intro h; exact absurd h (by simp)
    · rename_i hi
      simp [hi]
  refine ⟨?_, ?_, ?_, ?_, ?_, ?_, ?_, ?_⟩
  · rw [hff, first_fit_idx_none_iff]
  · intro h
    rw [hff] at h
    unfold PhysicalMemory.allocate_first_fit
    split
    · rename_i i hi
      rw [h] at hi
      exact absurd hi (by simp)
    · rfl
  · rw [hbf]
    unfold best_fit_idx
    rw [Option.map_eq_none', show (List.enum s.blocks) = List.enumFrom 0 s.blocks from rfl,
      best_fit_fold_none_iff]
    simp only [true_and]
    exact enumFrom_forall_snd (fun b => ¬(b.free = true ∧ n ≤ b.size)) s.blocks 0
  · intro h
    rw [hbf] at h
    unfold PhysicalMemory.allocate_best_fit
    split
    · rename_i i hi
      rw [h] at hi
      exact absurd hi (by simp)
    · rfl
  · rw [hwf]
    unfold worst_fit_idx
    rw [Option.map_eq_none', show (List.enum s.blocks) = List.enumFrom 0 s.blocks from rfl,
      worst_fit_fold_none_iff]
    simp only [true_and]
    exact enumFrom_forall_snd (fun b => ¬(b.free = true ∧ n ≤ b.size)) s.blocks 0
  · intro h
    rw [hwf] at h
    unfold PhysicalMemory.allocate_worst_fit
    split
    · rename_i i hi
      rw [h] at hi
      exact absurd hi (by simp)
    · rfl
  · unfold BuddyAllocator.allocate_buddy
    split
    · rename_i hsz
      simp only [true_iff]
      rcases hsz with h0 | hgt
      · exact Or.inl h0
      · exact Or.inr (Or.inl hgt)
    · rename_i hsz
      dsimp only []
      split
      · rename_i htgt
        simp only [true_iff]
        refine Or.inr (Or.inr ?_)
        intro j hj1 hj2
        omega
      · rename_i htgt
        split
        · rename_i hfn
          simp only [true_iff]
          refine Or.inr (Or.inr ?_)
          exact (first_nonempty_from_none_iff t.free_lists t.max_order
            (t.max_order + 1) _ (by omega)).mp hfn
        · rename_i co hfn
          constructor
          · intro h
            exact absurd h (by simp)
          · intro h
            exfalso
            rcases h with h0 | hgt | hall
            · omega
            · omega
            · obtain ⟨hk, hco, hne⟩ := first_nonempty_from_some t.free_lists
                t.max_order (t.max_order + 1) _ co (by omega) hfn
              exact hne (hall co hk hco)
  · intro h
    unfold BuddyAllocator.allocate_buddy at h ⊢
    by_cases h1 : (m = 0 ∨ m > t.total_memory)
    · rw [if_pos h1]
    · rw [if_neg h1] at h ⊢
      dsimp only [] at h ⊢
      by_cases h2 : log2_exact (next_power_of_two m) > t.max_order
      · rw [if_pos h2]
      · rw [if_neg h2] at h ⊢
        rcases hfn : first_nonempty_from t.free_lists t.max_order
            (log2_exact (next_power_of_two m)) with _ | co
        · rfl
        · rw [hfn] at h
          exact absurd h (by simp)

/-- Witness for failure preservation: an oversized request fails on both
allocators and leaves them untouched. -/
theorem alloc_failure_preserves_state_witness :
    ((mkPhysicalMemory 8).allocate_first_fit 100).2 = mkPhysicalMemory 8 ∧
    ((mkPhysicalMemory 8).allocate_best_fit 100).2 = mkPhysicalMemory 8 ∧
    ((mkPhysicalMemory 8).allocate_worst_fit 100).2 = mkPhysicalMemory 8 ∧
    (buddyW.allocate_buddy 100).2 = buddyW := by
  have h := alloc_failure_preserves_state (mkPhysicalMemory 8) buddyW 100 100
    (by decide)
  exact ⟨h.2.1 (by decide), h.2.2.2.1 (by decide),
    h.2.2.2.2.2.1 (by decide), h.2.2.2.2.2.2.2 (by decide)⟩

/-! ## Claim theorems: best fit -/

/-- Full specification of the best-fit fold over an enumerated suffix:
the result is eligible, comes from the accumulator or the list, improves
(weakly) on the accumulator with strict improvement on replacement, and
is minimal among eligible entries with ties resolved towards the
earliest index. -/
theorem best_fit_fold_spec (size : Nat) :
    ∀ (bs : List MemoryBlock) (n : Nat) (acc : Option (Nat × MemoryBlock))
      (p : Nat × MemoryBlock),
      (∀ q, acc = some q → q.1 < n ∧ q.2.free = true ∧ size ≤ q.2.size) →
      (List.enumFrom n bs).foldl (best_fit_step size) acc = some p →
      (p.2.free = true ∧ size ≤ p.2.size) ∧
      (acc = some p ∨
        ∃ k, ∃ hk : k < bs.length, p.1 = n + k ∧ bs.get ⟨k, hk⟩ = p.2) ∧
      (∀ q, acc = some q →
        p.2.size ≤ q.2.size ∧ (p.2.size = q.2.size → p = q)) ∧
      (∀ k (hk : k < bs.length), (bs.get ⟨k, hk⟩).free = true →
        size ≤ (bs.get ⟨k, hk⟩).size →
        p.2.size ≤ (bs.get ⟨k, hk⟩).size ∧
        ((bs.get ⟨k, hk⟩).size = p.2.size → p.1 ≤ n + k)) := by
  intro bs
  induction bs with
  | nil =>
    intro n acc p hacc hfold
    simp only [List.enumFrom, List.foldl_nil] at hfold
    obtain ⟨h1, h2, h3⟩ := hacc p hfold
    refine ⟨⟨h2, h3⟩, Or.inl hfold, ?_, ?_⟩
    · intro q hq
      rw [hfold] at hq
      injection hq with hq
      subst hq
      exact ⟨le_rfl, fun _ => rfl⟩
    · intro k hk
      exact absurd hk (by simp)
  | cons b bs ih =>
    intro n acc p hacc hfold
    rw [show List.enumFrom n (b :: bs) = (n, b) :: List.enumFrom (n + 1) bs
      from rfl, List.foldl_cons] at hfold
    set acc2 := best_fit_step size acc (n, b) with hacc2def
    have hstep : (¬(b.free = true ∧ size ≤ b.size) ∧ acc2 = acc) ∨
        ((b.free = true ∧ size ≤ b.size) ∧ acc = none ∧ acc2 = some (n, b)) ∨
        (∃ c, (b.free = true ∧ size ≤ b.size) ∧ acc = some c ∧
          b.size < c.2.size ∧ acc2 = some (n, b)) ∨
        (∃ c, (b.free = true ∧ size ≤ b.size) ∧ acc = some c ∧
          ¬b.size < c.2.size ∧ acc2 = acc) := by
      rw [hacc2def]
      unfold best_fit_step
      by_cases helig : b.free = true ∧ size ≤ b.size
      · rw [if_pos helig]
        cases acc with
        | none => exact Or.inr (Or.inl ⟨helig, rfl, rfl⟩)
        | some c =>
          dsimp only []
          by_cases hlt : b.size < c.2.size
          · rw [if_pos hlt]
            exact Or.inr (Or.inr (Or.inl ⟨c, helig, rfl, hlt, rfl⟩))
          · rw [if_neg hlt]
            exact Or.inr (Or.inr (Or.inr ⟨c, helig, rfl, hlt, rfl⟩))
      · rw [if_neg helig]
        exact Or.inl ⟨helig, rfl⟩
    have hacc2 : ∀ q, acc2 = some q →
        q.1 < n + 1 ∧ q.2.free = true ∧ size ≤ q.2.size := by
      intro q hq
      rcases hstep with ⟨_, heq⟩ | ⟨helig, _, heq⟩ |
        ⟨c, helig, _, _, heq⟩ | ⟨c, _, _, _, heq⟩
      · rw [heq] at hq
        obtain ⟨h1, h2, h3⟩ := hacc q hq
        exact ⟨by omega, h2, h3⟩
      · rw [heq] at hq
        injection hq with hq
        subst hq
        exact ⟨Nat.lt_succ_self n, helig.1, helig.2⟩
      · rw [heq] at hq
        injection hq with hq
        subst hq
        exact ⟨Nat.lt_succ_self n, helig.1, helig.2⟩
      · rw [heq] at hq
        obtain ⟨h1, h2, h3⟩ := hacc q hq
        exact ⟨by omega, h2, h3⟩
    obtain ⟨hA, hB, hC, hD⟩ := ih (n + 1) acc2 p hacc2 hfold
    refine ⟨hA, ?_, ?_, ?_⟩
    · rcases hB with hB | ⟨k, hk, hpk, hget⟩
      · rcases hstep with ⟨_, heq⟩ | ⟨_, _, heq⟩ |
          ⟨c, _, _, _, heq⟩ | ⟨c, _, _, _, heq⟩
        · exact Or.inl (heq ▸ hB)
        · rw [heq] at hB
          injection hB with hB
          refine Or.inr ⟨0, by simp, ?_, ?_⟩
          · rw [← hB]
            rfl
          · rw [← hB]
            rfl
        · rw [heq] at hB
          injection hB with hB
          refine Or.inr ⟨0, by simp, ?_, ?_⟩
          · rw [← hB]
            rfl
          · rw [← hB]
            rfl
        · exact Or.inl (heq ▸ hB)
      · refine Or.inr ⟨k + 1, by simpa using hk, by omega, hget⟩
    · intro q hq
      rcases hstep with ⟨_, heq⟩ | ⟨_, hnone, heq⟩ |
        ⟨c, helig, hsome, hlt, heq⟩ | ⟨c, helig, hsome, hnlt, heq⟩
      · exact hC q (by rw [heq, hq])
      · rw [hq] at hnone
        exact absurd hnone (by simp)
      · rw [hq] at hsome
        injection hsome with hsome
        subst hsome
        have h1 := hC (n, b) (by rw [heq])
        constructor
        · exact le_trans h1.1 (le_of_lt hlt)
        · intro htie
          exfalso
          have := h1.1
          dsimp only [] at this hlt
          omega
      · rw [hq] at hsome
        injection hsome with hsome
        subst hsome
        exact hC q (by rw [heq, hq])
    · intro k hk hfree hsize
      cases k with
      | zero =>
        have hget0 : (b :: bs).get ⟨0, hk⟩ = b := rfl
        rw [hget0] at hfree hsize ⊢
        rcases hstep with ⟨hnelig, heq⟩ | ⟨helig, hnone, heq⟩ |
          ⟨c, helig, hsome, hlt, heq⟩ | ⟨c, helig, hsome, hnlt, heq⟩
        · exact absurd ⟨hfree, hsize⟩ hnelig
        · have h1 := hC (n, b) (by rw [heq])
          refine ⟨h1.1, ?_⟩
          intro htie
          have := h1.2 htie.symm
          rw [this]
          exact Nat.le_add_right n 0
        · have h1 := hC (n, b) (by rw [heq])
          refine ⟨h1.1, ?_⟩
          intro htie
          have := h1.2 htie.symm
          rw [this]
          exact Nat.le_add_right n 0
        · have h1 := hC c (by rw [heq, hsome])
          have hcb : c.2.size ≤ b.size := by omega
          refine ⟨le_trans h1.1 hcb, ?_⟩
          intro htie
          have hsz : p.2.size = c.2.size := by omega
          have := h1.2 hsz
          have hcn := (hacc c hsome).1
          rw [this]
          omega
      | succ k =>
        have hgetS : (b :: bs).get ⟨k + 1, hk⟩ = bs.get ⟨k, by simpa using hk⟩ :=
          rfl
        rw [hgetS] at hfree hsize ⊢
        obtain ⟨h1, h2⟩ := hD k (by simpa using hk) hfree hsize
        exact ⟨h1, fun htie => by have := h2 htie; omega⟩

/-- C8: best-fit allocation selects the free block of minimal
sufficient size, breaking ties towards the lowest start address (for an
address-ordered block list), and on the spec's concrete scenario over
`FreeList(1024, BEST_FIT)` the allocation of 150 is placed at address
600, the position of the 200-byte hole, not at address 0, the 100-byte
hole.  (In the scenario the allocation of 300 fails, since only 224
bytes remain free at the top; the placement conclusion is unaffected.) -/
theorem pm_best_fit_minimal_and_scenario (blocks : List MemoryBlock)
    (r i : Nat) (horder : List.Chain' (fun a b => a.start ≤ b.start) blocks)
    (h : best_fit_idx blocks r = some i) :
    (∃ hi : i < blocks.length,
      (blocks.get ⟨i, hi⟩).free = true ∧ r ≤ (blocks.get ⟨i, hi⟩).size ∧
      ∀ j (hj : j < blocks.length), (blocks.get ⟨j, hj⟩).free = true →
        r ≤ (blocks.get ⟨j, hj⟩).size →
        (blocks.get ⟨i, hi⟩).size ≤ (blocks.get ⟨j, hj⟩).size ∧
        ((blocks.get ⟨j, hj⟩).size = (blocks.get ⟨i, hi⟩).size →
          (blocks.get ⟨i, hi⟩).start ≤ (blocks.get ⟨j, hj⟩).start)) ∧
    ((mkPhysicalMemory 1024).run
        [PMOp.allocBest 100, PMOp.allocBest 500, PMOp.allocBest 200,
         PMOp.allocBest 300, PMOp.freeBlock 1, PMOp.freeBlock 3]).blocks =
      [{ start := 0, size := 100, free := true, id := -1 },
       { start := 100, size := 500, free := false, id := 2 },
       { start := 600, size := 424, free := true, id := -1 }] ∧
    ((mkPhysicalMemory 1024).run
        [PMOp.allocBest 100, PMOp.allocBest 500, PMOp.allocBest 200,
         PMOp.allocBest 300, PMOp.freeBlock 1, PMOp.freeBlock 3,
         PMOp.allocBest 150]).blocks =
      [{ start := 0, size := 100, free := true, id := -1 },
       { start := 100, size := 500, free := false, id := 2 },
       { start := 600, size := 150, free := false, id := 4 },
       { start := 750, size := 274, free := true, id := -1 }] := by
  refine ⟨?_, by decide, by decide⟩
  unfold best_fit_idx at h
  rw [Option.map_eq_some'] at h
  obtain ⟨p, hfold, hpi⟩ := h
  have hspec := best_fit_fold_spec r blocks 0 none p (by simp) hfold
  obtain ⟨⟨hfree, hsize⟩, hB, hC, hD⟩ := hspec
  rcases hB with hB | ⟨k, hk, hpk, hget⟩
  · exact absurd hB (by simp)
  · have hik : i = k := by omega
    subst hik
    refine ⟨hk, by rw [hget]; exact hfree, by rw [hget]; exact hsize, ?_⟩
    intro j hj hjfree hjsize
    obtain ⟨hle, htie⟩ := hD j hj hjfree hjsize
    constructor
    · rw [hget]
      exact hle
    · intro heq
      rw [hget] at heq
      have hij : i ≤ j := by
        have := htie heq
        omega
      rcases Nat.eq_or_lt_of_le hij with rfl | hlt
      · exact le_rfl
      · haveI : IsTrans MemoryBlock (fun a b => a.start ≤ b.start) :=
          ⟨fun a b c hab hbc => le_trans hab hbc⟩
        have hpw := List.chain'_iff_pairwise.mp horder
        exact List.pairwise_iff_get.mp hpw ⟨i, hk⟩ ⟨j, hj⟩ hlt

/-- Witness for the best-fit theorem at the scenario state: request 150
selects index 2 (start 600). -/
theorem pm_best_fit_minimal_and_scenario_witness :
    ((mkPhysicalMemory 1024).run
        [PMOp.allocBest 100, PMOp.allocBest 500, PMOp.allocBest 200,
         PMOp.allocBest 300, PMOp.freeBlock 1, PMOp.freeBlock 3]).blocks =
      [{ start := 0, size := 100, free := true, id := -1 },
       { start := 100, size := 500, free := false, id := 2 },
       { start := 600, size := 424, free := true, id := -1 }] :=
  (pm_best_fit_minimal_and_scenario blocksW 150 2
    (by
      unfold blocksW
      rw [List.chain'_cons, List.chain'_cons]
      exact ⟨by decide, by decide, List.chain'_singleton _⟩)
    (by decide)).2.1

/-! ## Claim theorems: zero-size allocation -/

/-- C10 is false of the code: in the reachable state holding a
zero-size free block at the front (obtained by allocating 0 bytes, then
the whole arena, then freeing the zero-size block), a further
`allocate_first_fit 0` takes the exact-fit path: it returns the fresh
id 3 but inserts no block (the length stays 2) and flips the
pre-existing free block's status in place. -/
theorem pm_alloc_zero_marks_in_place :
    (let s0 := mkPhysicalMemory 1024
     let s1 := (s0.allocate_first_fit 0).2
     let s2 := (s1.allocate_first_fit 1024).2
     let s3 := s2.free_block 1
     ((s3.blocks.getD 0 { start := 0, size := 0, free := false, id := 0 }).free,
      (s3.allocate_first_fit 0).1,
      s3.blocks.length,
      (s3.allocate_first_fit 0).2.blocks.length,
      ((s3.allocate_first_fit 0).2.blocks.getD 0
        { start := 0, size := 0, free := true, id := 0 }).free)) =
    (true, 3, 2, 2, false) := by decide

/-- Shape of `allocate_from_block` for a zero-size request: exact fit
marks the selected (zero-size) block in place, otherwise a zero-size
allocated block is inserted before the selected block, which itself is
unchanged (`start += 0`, `size -= 0`). -/
theorem alloc_at_zero (blocks : List MemoryBlock) :
    ∀ (i : Nat) (id : Int) (hi : i < blocks.length),
      alloc_at blocks i 0 id =
        if (blocks.get ⟨i, hi⟩).size = 0 then
          blocks.set i { blocks.get ⟨i, hi⟩ with free := false, id := id }
        else
          blocks.insertIdx i
            { start := (blocks.get ⟨i, hi⟩).start, size := 0, free := false,
              id := id } := by
  induction blocks with
  | nil =>
    intro i id hi
    exact absurd hi (by simp)
  | cons b bs ih =>
    intro i id hi
    cases i with
    | zero =>
      unfold alloc_at
      rw [show (b :: bs).get ⟨0, hi⟩ = b from rfl]
      by_cases hsz : b.size = 0
      · rw [if_pos hsz, if_pos hsz]
        rfl
      · rw [if_neg hsz, if_neg hsz, List.insertIdx_zero]
        rfl
    | succ i =>
      have hi2 : i < bs.length := by simpa using hi
      show b :: alloc_at bs i 0 id = _
      rw [ih i id hi2,
        show (b :: bs).get ⟨i + 1, hi⟩ = bs.get ⟨i, hi2⟩ from rfl]
      by_cases hsz : (bs.get ⟨i, hi2⟩).size = 0
      · rw [if_pos hsz, if_pos hsz]
        rfl
      · rw [if_neg hsz, if_neg hsz, List.insertIdx_succ_cons]

/-- Folding addition of block sizes equals the starting value plus the
sum of sizes. -/
theorem foldl_add_size (l : List MemoryBlock) :
    ∀ a : Nat, l.foldl (fun acc b => acc + b.size) a =
      a + (l.map MemoryBlock.size).sum := by
  induction l with
  | nil => intro a; simp
  | cons b bs ih =>
    intro a
    rw [List.foldl_cons, ih, List.map_cons, List.sum_cons]
    omega

/-- `used_memory` as a sum over the allocated blocks. -/
theorem used_memory_eq_sum (s : PhysicalMemory) :
    s.used_memory = ((s.blocks.filter fun b => !b.free).map
      MemoryBlock.size).sum := by
  unfold PhysicalMemory.used_memory
  rw [foldl_add_size]
  omega

/-- Replacing a zero-size block with a zero-size block does not change
the allocated-size sum. -/
theorem usedSum_set_zero (nb : MemoryBlock) (hnb : nb.size = 0) :
    ∀ (l : List MemoryBlock) (i : Nat) (hi : i < l.length),
      (l.get ⟨i, hi⟩).size = 0 →
      (((l.set i nb).filter fun b => !b.free).map MemoryBlock.size).sum =
        ((l.filter fun b => !b.free).map MemoryBlock.size).sum := by
  intro l
  induction l with
  | nil =>
    intro i hi
    exact absurd hi (by simp)
  | cons b bs ih =>
    intro i hi hold
    cases i with
    | zero =>
      show (((nb :: bs).filter fun b => !b.free).map MemoryBlock.size).sum = _
      have hb : b.size = 0 := hold
      cases hf1 : nb.free <;> cases hf2 : b.free <;>
        simp [List.filter_cons, hf1, hf2, hnb, hb]
    | succ i =>
      have hi2 : i < bs.length := by simpa using hi
      show (((b :: bs.set i nb).filter fun b => !b.free).map
        MemoryBlock.size).sum = _
      have := ih i hi2 hold
      cases hf : b.free <;> simp [List.filter_cons, hf, this]

/-- Inserting a zero-size block does not change the allocated-size sum. -/
theorem usedSum_insertIdx_zero (nb : MemoryBlock) (hnb : nb.size = 0) :
    ∀ (l : List MemoryBlock) (i : Nat),
      (((l.insertIdx i nb).filter fun b => !b.free).map
        MemoryBlock.size).sum =
        ((l.filter fun b => !b.free).map MemoryBlock.size).sum := by
  intro l
  induction l with
  | nil =>
    intro i
    cases i with
    | zero =>
      cases hf : nb.free <;> simp [List.insertIdx_zero, List.filter_cons, hf, hnb]
    | succ i => rw [List.insertIdx_succ_nil]
  | cons b bs ih =>
    intro i
    cases i with
    | zero =>
      cases hf : nb.free <;> simp [List.insertIdx_zero, List.filter_cons, hf, hnb]
    | succ i =>
      rw [List.insertIdx_succ_cons]
      cases hf : b.free <;> simp [List.filter_cons, hf, ih i]

/-- If the first-fit scan returns an index, that block is free and large
enough. -/
theorem first_fit_idx_some (blocks : List MemoryBlock) (size : Nat) :
    ∀ i, first_fit_idx blocks size = some i →
      ∃ hi : i < blocks.length,
        (blocks.get ⟨i, hi⟩).free = true ∧ size ≤ (blocks.get ⟨i, hi⟩).size := by
  induction blocks with
  | nil =>
    intro i h
    exact absurd h (by simp [first_fit_idx])
  | cons b bs ih =>
    intro i h
    unfold first_fit_idx at h
    split at h
    · rename_i hb
      injection h with h
      subst h
      exact ⟨by simp, hb.1, hb.2⟩
    · rw [Option.map_eq_some'] at h
      obtain ⟨j, hj, hji⟩ := h
      obtain ⟨hjlt, hfree, hsize⟩ := ih j hj
      subst hji
      exact ⟨by simpa using hjlt, hfree, hsize⟩

/-- Origin of the worst-fit fold result: it is eligible and comes from
the accumulator or the enumerated list. -/
theorem worst_fit_fold_origin (size : Nat) :
    ∀ (bs : List MemoryBlock) (n : Nat) (acc : Option (Nat × MemoryBlock))
      (p : Nat × MemoryBlock),
      (∀ q, acc = some q → q.2.free = true ∧ size ≤ q.2.size) →
      (List.enumFrom n bs).foldl (worst_fit_step size) acc = some p →
      (p.2.free = true ∧ size ≤ p.2.size) ∧
      (acc = some p ∨
        ∃ k, ∃ hk : k < bs.length, p.1 = n + k ∧ bs.get ⟨k, hk⟩ = p.2) := by
  intro bs
  induction bs with
  | nil =>
    intro n acc p hacc hfold
    simp only [List.enumFrom, List.foldl_nil] at hfold
    exact ⟨hacc p hfold, Or.inl hfold⟩
  | cons b bs ih =>
    intro n acc p hacc hfold
    rw [show List.enumFrom n (b :: bs) = (n, b) :: List.enumFrom (n + 1) bs
      from rfl, List.foldl_cons] at hfold
    set acc2 := worst_fit_step size acc (n, b) with hacc2def
    have hstep : acc2 = acc ∨
        ((b.free = true ∧ size ≤ b.size) ∧ acc2 = some (n, b)) := by
      rw [hacc2def]
      unfold worst_fit_step
      by_cases helig : b.free = true ∧ size ≤ b.size
      · rw [if_pos helig]
        cases acc with
        | none => exact Or.inr ⟨helig, rfl⟩
        | some c =>
          dsimp only []
          by_cases hlt : c.2.size < b.size
          · rw [if_pos hlt]
            exact Or.inr ⟨helig, rfl⟩
          · rw [if_neg hlt]
            exact Or.inl rfl
      · rw [if_neg helig]
        exact Or.inl rfl
    have hacc2 : ∀ q, acc2 = some q → q.2.free = true ∧ size ≤ q.2.size := by
      intro q hq
      rcases hstep with heq | ⟨helig, heq⟩
      · exact hacc q (heq ▸ hq)
      · rw [heq] at hq
        injection hq with hq
        subst hq
        exact ⟨helig.1, helig.2⟩
    obtain ⟨hA, hB⟩ := ih (n + 1) acc2 p hacc2 hfold
    refine ⟨hA, ?_⟩
    rcases hB with hB | ⟨k, hk, hpk, hget⟩
    · rcases hstep with heq | ⟨helig, heq⟩
      · exact Or.inl (heq ▸ hB)
      · rw [heq] at hB
        injection hB with hB
        refine Or.inr ⟨0, by simp, ?_, ?_⟩
        · rw [← hB]
          rfl
        · rw [← hB]
          rfl
    · exact Or.inr ⟨k + 1, by simpa using hk, by omega, hget⟩

/-- Allocating zero bytes from any selected free block produces the
described result. -/
theorem alloc_zero_common (s : PhysicalMemory) (i : Nat)
    (hi : i < s.blocks.length) (hfree : (s.blocks.get ⟨i, hi⟩).free = true) :
    alloc_zero_result s
      (s.next_id,
        { s with blocks := alloc_at s.blocks i 0 s.next_id
                 next_id := s.next_id + 1 }) := by
  refine ⟨rfl, rfl, rfl, ?_, i, hi, hfree, ?_, ?_⟩
  · rw [used_memory_eq_sum, used_memory_eq_sum]
    dsimp only []
    rw [alloc_at_zero s.blocks i s.next_id hi]
    by_cases hsz : (s.blocks.get ⟨i, hi⟩).size = 0
    · rw [if_pos hsz]
      exact usedSum_set_zero
        { s.blocks.get ⟨i, hi⟩ with free := false, id := s.next_id } hsz
        s.blocks i hi hsz
    · rw [if_neg hsz]
      exact usedSum_insertIdx_zero _ rfl s.blocks i
  · intro hpos
    dsimp only []
    rw [alloc_at_zero s.blocks i s.next_id hi, if_neg (by omega)]
  · intro hzero
    dsimp only []
    rw [alloc_at_zero s.blocks i s.next_id hi, if_pos hzero]

/-- C10 (amended): in any state with at least one free block and a
well-formed id counter, a zero-size request succeeds under all three
strategies with a fresh positive id, leaving `used_memory` unchanged;
if the selected free block has positive size, a zero-size allocated
block is inserted before it and all pre-existing blocks are unchanged,
but if the selected free block has size zero the code takes the
exact-fit path and marks that block allocated in place (no insertion).
The unamended claim, which asserts the insertion shape unconditionally,
fails on reachable states with a zero-size free block. -/
theorem pm_alloc_zero_succeeds (s : PhysicalMemory)
    (hfree : ∃ b ∈ s.blocks, b.free = true) (hid : 1 ≤ s.next_id) :
    (1 ≤ (s.allocate_first_fit 0).1 ∧
      alloc_zero_result s (s.allocate_first_fit 0)) ∧
    (1 ≤ (s.allocate_best_fit 0).1 ∧
      alloc_zero_result s (s.allocate_best_fit 0)) ∧
    (1 ≤ (s.allocate_worst_fit 0).1 ∧
      alloc_zero_result s (s.allocate_worst_fit 0)) := by
  obtain ⟨bf, hbf, hbffree⟩ := hfree
  refine ⟨?_, ?_, ?_⟩
  · cases hidx : first_fit_idx s.blocks 0 with
    | none =>
      exfalso
      exact (first_fit_idx_none_iff s.blocks 0).mp hidx bf hbf
        ⟨hbffree, Nat.zero_le _⟩
    | some i =>
      obtain ⟨hilt, hifree, -⟩ := first_fit_idx_some s.blocks 0 i hidx
      unfold PhysicalMemory.allocate_first_fit
      rw [hidx]
      exact ⟨hid, alloc_zero_common s i hilt hifree⟩
  · cases hidx : best_fit_idx s.blocks 0 with
    | none =>
      exfalso
      unfold best_fit_idx at hidx
      rw [Option.map_eq_none'] at hidx
      have h2 := ((best_fit_fold_none_iff 0 (List.enumFrom 0 s.blocks)
        none).mp hidx).2
      exact (enumFrom_forall_snd
          (fun b => ¬(b.free = true ∧ 0 ≤ b.size)) s.blocks 0).mp h2 bf hbf
        ⟨hbffree, Nat.zero_le _⟩
    | some i =>
      unfold best_fit_idx at hidx
      rw [Option.map_eq_some'] at hidx
      obtain ⟨p, hfold, hpi⟩ := hidx
      obtain ⟨⟨hpfree, -⟩, hB, -, -⟩ :=
        best_fit_fold_spec 0 s.blocks 0 none p (by simp) hfold
      rcases hB with hB | ⟨k, hk, hpk, hget⟩
      · exact absurd hB (by simp)
      · have hik : i = k := by omega
        subst hik
        unfold PhysicalMemory.allocate_best_fit best_fit_idx
        rw [show s.blocks.enum.foldl (best_fit_step 0) none =
          some p from hfold, show (some p).map (fun q => q.1) = some i
          from by simp [hpi]]
        refine ⟨hid, alloc_zero_common s i hk ?_⟩
        rw [hget]
        exact hpfree
  · cases hidx : worst_fit_idx s.blocks 0 with
    | none =>
      exfalso
      unfold worst_fit_idx at hidx
      rw [Option.map_eq_none'] at hidx
      have h2 := ((worst_fit_fold_none_iff 0 (List.enumFrom 0 s.blocks)
        none).mp hidx).2
      exact (enumFrom_forall_snd
          (fun b => ¬(b.free = true ∧ 0 ≤ b.size)) s.blocks 0).mp h2 bf hbf
        ⟨hbffree, Nat.zero_le _⟩
    | some i =>
      unfold worst_fit_idx at hidx
      rw [Option.map_eq_some'] at hidx
      obtain ⟨p, hfold, hpi⟩ := hidx
      obtain ⟨⟨hpfree, -⟩, hB⟩ :=
        worst_fit_fold_origin 0 s.blocks 0 none p (by simp) hfold
      rcases hB with hB | ⟨k, hk, hpk, hget⟩
      · exact absurd hB (by simp)
      · have hik : i = k := by omega
        subst hik
        unfold PhysicalMemory.allocate_worst_fit worst_fit_idx
        rw [show s.blocks.enum.foldl (worst_fit_step 0) none =
          some p from hfold, show (some p).map (fun q => q.1) = some i
          from by simp [hpi]]
        refine ⟨hid, alloc_zero_common s i hk ?_⟩
        rw [hget]
        exact hpfree

/-- Witness for the zero-size allocation theorem on a fresh
`FreeList(4)`. -/
theorem pm_alloc_zero_succeeds_witness :
    1 ≤ ((mkPhysicalMemory 4).allocate_first_fit 0).1 :=
  (pm_alloc_zero_succeeds (mkPhysicalMemory 4) (by decide) (by decide)).1.1

/-! ## Claim theorems: free-list invariants -/

theorem contig_merge_next (total : Nat) (b : MemoryBlock)
    (rest : List MemoryBlock) :
    ∀ pos, contigFrom total pos (b :: rest) →
      contigFrom total pos (merge_next b rest) := by
  intro pos h
  unfold merge_next
  cases rest with
  | nil => exact h
  | cons n rest2 =>
    dsimp only []
    by_cases hf : n.free
    · rw [if_pos hf]
      obtain ⟨h1, h2, h3⟩ := h
      refine ⟨h1, ?_⟩
      rw [show pos + (b.size + n.size) = pos + b.size + n.size from by omega]
      exact h3
    · rw [if_neg hf]
      exact h

theorem contig_free_scan (total : Nat) (id : Int) :
    ∀ (rest : List MemoryBlock) (prev : MemoryBlock) (pos : Nat),
      contigFrom total pos (prev :: rest) →
      contigFrom total pos (free_scan prev rest id) := by
  intro rest
  induction rest with
  | nil =>
    intro prev pos h
    exact h
  | cons n rest2 ih =>
    intro prev pos h
    unfold free_scan
    by_cases ht : free_target n id
    · rw [if_pos ht]
      by_cases hpf : prev.free
      · rw [if_pos hpf]
        apply contig_merge_next
        obtain ⟨h1, h2, h3⟩ := h
        refine ⟨h1, ?_⟩
        rw [show pos + (prev.size + n.size) = pos + prev.size + n.size
          from by omega]
        exact h3
      · rw [if_neg hpf]
        obtain ⟨h1, hrest⟩ := h
        exact ⟨h1, contig_merge_next total _ rest2 (pos + prev.size) hrest⟩
    · rw [if_neg ht]
      obtain ⟨h1, hrest⟩ := h
      exact ⟨h1, ih n (pos + prev.size) hrest⟩

theorem contig_free_block (s : PhysicalMemory) (id : Int) :
    contigFrom s.total_size 0 s.blocks →
    contigFrom s.total_size 0 (s.free_block id).blocks := by
  intro h
  unfold PhysicalMemory.free_block
  cases hb : s.blocks with
  | nil => rw [hb] at h; exact h
  | cons b rest =>
    rw [hb] at h
    dsimp only []
    by_cases ht : free_target b id
    · rw [if_pos ht]
      exact contig_merge_next s.total_size _ rest 0 h
    · rw [if_neg ht]
      exact contig_free_scan s.total_size id rest b 0 h

theorem contig_alloc_at (total : Nat) (size : Nat) (id : Int) :
    ∀ (l : List MemoryBlock) (i : Nat) (pos : Nat) (hi : i < l.length),
      size ≤ (l.get ⟨i, hi⟩).size →
      contigFrom total pos l → contigFrom total pos (alloc_at l i size id) := by
  intro l
  induction l with
  | nil =>
    intro i pos hi
    exact absurd hi (by simp)
  | cons b rest ih =>
    intro i pos hi hsz h
    cases i with
    | zero =>
      unfold alloc_at
      have hsz0 : size ≤ b.size := hsz
      by_cases he : b.size = size
      · rw [if_pos he]
        exact ⟨h.1, h.2⟩
      · rw [if_neg he]
        obtain ⟨h1, h2⟩ := h
        refine ⟨h1, ?_, ?_⟩
        · rw [h1]
        · rw [show pos + size + (b.size - size) = pos + b.size
            from by omega]
          exact h2
    | succ i =>
      obtain ⟨h1, h2⟩ := h
      exact ⟨h1, ih i (pos + b.size) (by simpa using hi) hsz h2⟩

theorem contig_sum (total : Nat) :
    ∀ (l : List MemoryBlock) (pos : Nat),
      contigFrom total pos l → pos + (l.map MemoryBlock.size).sum = total := by
  intro l
  induction l with
  | nil =>
    intro pos h
    simpa using h
  | cons b rest ih =>
    intro pos h
    obtain ⟨h1, h2⟩ := h
    have := ih (pos + b.size) h2
    rw [List.map_cons, List.sum_cons]
    omega

theorem contig_chain_start (total : Nat) :
    ∀ (l : List MemoryBlock) (pos : Nat), contigFrom total pos l →
      List.Chain' (fun a b => a.start ≤ b.start) l := by
  intro l
  induction l with
  | nil =>
    intro pos h
    exact List.chain'_nil
  | cons b rest ih =>
    intro pos h
    obtain ⟨h1, h2⟩ := h
    cases rest with
    | nil => exact List.chain'_singleton b
    | cons n rest2 =>
      rw [List.chain'_cons]
      obtain ⟨h3, h4⟩ := h2
      exact ⟨by omega, ih (pos + b.size) ⟨h3, h4⟩⟩

theorem noAdjFree_tail : ∀ {a : MemoryBlock} {l : List MemoryBlock},
    noAdjFree (a :: l) → noAdjFree l := by
  intro a l h
  cases l with
  | nil => trivial
  | cons b t => exact h.2

theorem noAdjFree_cons (a : MemoryBlock) (l : List MemoryBlock)
    (hl : noAdjFree l)
    (hp : ∀ hd t, l = hd :: t → ¬(a.free = true ∧ hd.free = true)) :
    noAdjFree (a :: l) := by
  cases l with
  | nil => trivial
  | cons hd t => exact ⟨hp hd t rfl, hl⟩

theorem noAdjFree_replace_head (x y : MemoryBlock) (l : List MemoryBlock)
    (hf : y.free = x.free) (h : noAdjFree (x :: l)) : noAdjFree (y :: l) := by
  cases l with
  | nil => trivial
  | cons hd t =>
    refine ⟨?_, h.2⟩
    rw [hf]
    exact h.1

theorem noAdjFree_pair {a b : MemoryBlock} {l : List MemoryBlock}
    (h : noAdjFree (a :: b :: l)) : ¬(a.free = true ∧ b.free = true) :=
  h.1

theorem merge_next_head (b : MemoryBlock) (rest : List MemoryBlock) :
    ∃ hd t, merge_next b rest = hd :: t ∧ hd.free = b.free := by
  unfold merge_next
  cases rest with
  | nil => exact ⟨b, [], rfl, rfl⟩
  | cons n rest2 =>
    dsimp only []
    by_cases hf : n.free
    · rw [if_pos hf]
      exact ⟨_, rest2, rfl, rfl⟩
    · rw [if_neg hf]
      exact ⟨b, n :: rest2, rfl, rfl⟩

theorem free_scan_head (id : Int) (rest : List MemoryBlock)
    (prev : MemoryBlock) :
    ∃ hd t, free_scan prev rest id = hd :: t ∧ hd.free = prev.free := by
  unfold free_scan
  cases rest with
  | nil => exact ⟨prev, [], rfl, rfl⟩
  | cons n rest2 =>
    dsimp only []
    by_cases ht : free_target n id
    · rw [if_pos ht]
      by_cases hpf : prev.free
      · rw [if_pos hpf]
        obtain ⟨hd, t, heq, hfree⟩ := merge_next_head
          { prev with size := prev.size + n.size } rest2
        exact ⟨hd, t, heq, hfree⟩
      · rw [if_neg hpf]
        exact ⟨prev, _, rfl, rfl⟩
    · rw [if_neg ht]
      exact ⟨prev, _, rfl, rfl⟩

theorem noAdj_merge_next (b : MemoryBlock) (rest : List MemoryBlock)
    (hb : b.free = true) (h : noAdjFree rest) :
    noAdjFree (merge_next b rest) := by
  unfold merge_next
  cases rest with
  | nil => trivial
  | cons n rest2 =>
    dsimp only []
    by_cases hf : n.free
    · rw [if_pos hf]
      apply noAdjFree_cons _ _ (noAdjFree_tail h)
      intro hd t heq
      subst heq
      have hpair := noAdjFree_pair (a := n) (b := hd) (l := t) h
      intro hcon
      exact hpair ⟨hf, hcon.2⟩
    · rw [if_neg hf]
      apply noAdjFree_cons _ _ h
      intro hd t heq
      intro hcon
      rw [show hd = n from by
        have := List.cons.inj heq
        exact this.1.symm] at hcon
      exact hf hcon.2

theorem noAdj_free_scan (id : Int) :
    ∀ (rest : List MemoryBlock) (prev : MemoryBlock),
      noAdjFree (prev :: rest) → noAdjFree (free_scan prev rest id) := by
  intro rest
  induction rest with
  | nil =>
    intro prev h
    trivial
  | cons n rest2 ih =>
    intro prev h
    unfold free_scan
    by_cases ht : free_target n id
    · rw [if_pos ht]
      by_cases hpf : prev.free
      · rw [if_pos hpf]
        exact noAdj_merge_next _ rest2 hpf (noAdjFree_tail (noAdjFree_tail h))
      · rw [if_neg hpf]
        apply noAdjFree_cons
        · exact noAdj_merge_next _ rest2 rfl
            (noAdjFree_tail (noAdjFree_tail h))
        · intro hd t heq hcon
          exact hpf hcon.1
    · rw [if_neg ht]
      apply noAdjFree_cons
      · exact ih n (noAdjFree_tail h)
      · intro hd t heq hcon
        obtain ⟨hd2, t2, heq2, hfree2⟩ := free_scan_head id rest2 n
        rw [heq2] at heq
        obtain ⟨h1, -⟩ := List.cons.inj heq
        rw [← h1, hfree2] at hcon
        exact noAdjFree_pair h ⟨hcon.1, hcon.2⟩

theorem noAdj_free_block (s : PhysicalMemory) (id : Int) :
    noAdjFree s.blocks → noAdjFree (s.free_block id).blocks := by
  intro h
  unfold PhysicalMemory.free_block
  cases hb : s.blocks with
  | nil => trivial
  | cons b rest =>
    rw [hb] at h
    dsimp only []
    by_cases ht : free_target b id
    · rw [if_pos ht]
      exact noAdj_merge_next _ rest rfl (noAdjFree_tail h)
    · rw [if_neg ht]
      exact noAdj_free_scan id rest b h

theorem alloc_at_head (size : Nat) (id : Int) :
    ∀ (l : List MemoryBlock) (i : Nat), i < l.length →
      ∃ hd t, alloc_at l i size id = hd :: t ∧
        (hd.free = false ∨ ∃ hd0 t0, l = hd0 :: t0 ∧ hd.free = hd0.free) := by
  intro l i hi
  cases l with
  | nil => exact absurd hi (by simp)
  | cons b rest =>
    cases i with
    | zero =>
      unfold alloc_at
      by_cases he : b.size = size
      · rw [if_pos he]
        exact ⟨_, rest, rfl, Or.inl rfl⟩
      · rw [if_neg he]
        exact ⟨_, _, rfl, Or.inl rfl⟩
    | succ i =>
      exact ⟨b, alloc_at rest i size id, rfl, Or.inr ⟨b, rest, rfl, rfl⟩⟩

theorem noAdj_alloc_at (size : Nat) (id : Int) :
    ∀ (l : List MemoryBlock) (i : Nat), i < l.length →
      noAdjFree l → noAdjFree (alloc_at l i size id) := by
  intro l
  induction l with
  | nil =>
    intro i hi
    exact absurd hi (by simp)
  | cons b rest ih =>
    intro i hi h
    cases i with
    | zero =>
      unfold alloc_at
      by_cases he : b.size = size
      · rw [if_pos he]
        apply noAdjFree_cons _ _ (noAdjFree_tail h)
        intro hd t heq hcon
        exact absurd hcon.1 (by simp)
      · rw [if_neg he]
        apply noAdjFree_cons
        · exact noAdjFree_replace_head b _ rest rfl h
        · intro hd t heq hcon
          exact absurd hcon.1 (by simp)
    | succ i =>
      have hi2 : i < rest.length := by simpa using hi
      show noAdjFree (b :: alloc_at rest i size id)
      apply noAdjFree_cons _ _ (ih i hi2 (noAdjFree_tail h))
      intro hd t heq hcon
      obtain ⟨hd2, t2, heq2, hstat⟩ := alloc_at_head size id rest i hi2
      rw [heq2] at heq
      obtain ⟨h1, -⟩ := List.cons.inj heq
      subst h1
      rcases hstat with hfalse | ⟨hd0, t0, heq0, hsame⟩
      · rw [hfalse] at hcon
        exact absurd hcon.2 (by simp)
      · subst heq0
        rw [hsame] at hcon
        exact noAdjFree_pair h hcon

theorem allocIds_cons (x : MemoryBlock) (l : List MemoryBlock) :
    allocIds (x :: l) =
      if x.free = true then allocIds l else x.id :: allocIds l := by
  cases hf : x.free <;> simp [allocIds, List.filter_cons, hf]

theorem merge_next_allocIds (b : MemoryBlock) (rest : List MemoryBlock)
    (hb : b.free = true) : allocIds (merge_next b rest) = allocIds rest := by
  unfold merge_next
  cases rest with
  | nil =>
    rw [show allocIds [b] = allocIds ([] : List MemoryBlock)
      from by simp [allocIds, hb]]
  | cons n rest2 =>
    dsimp only []
    by_cases hf : n.free
    · rw [if_pos hf, allocIds_cons, if_pos hb, allocIds_cons, if_pos hf]
    · rw [if_neg hf, allocIds_cons, if_pos hb]

theorem free_target_not_free {b : MemoryBlock} {id : Int}
    (h : free_target b id = true) : b.free = false ∧ b.id = id := by
  unfold free_target at h
  simp only [Bool.and_eq_true, Bool.not_eq_true', beq_iff_eq] at h
  exact h

theorem free_scan_allocIds (id : Int) :
    ∀ (rest : List MemoryBlock) (prev : MemoryBlock),
      (allocIds (free_scan prev rest id)).Sublist
        (allocIds (prev :: rest)) := by
  intro rest
  induction rest with
  | nil =>
    intro prev
    exact List.Sublist.refl _
  | cons n rest2 ih =>
    intro prev
    unfold free_scan
    by_cases ht : free_target n id
    · rw [if_pos ht]
      obtain ⟨hnf, -⟩ := free_target_not_free ht
      by_cases hpf : prev.free
      · rw [if_pos hpf]
        rw [merge_next_allocIds _ _ (by exact hpf), allocIds_cons,
          if_pos hpf, allocIds_cons, if_neg (by rw [hnf]; simp)]
        exact List.sublist_cons_self _ _
      · rw [if_neg hpf]
        rw [allocIds_cons, if_neg hpf, merge_next_allocIds _ _ rfl,
          allocIds_cons, if_neg hpf, allocIds_cons,
          if_neg (by rw [hnf]; simp)]
        exact List.Sublist.cons₂ _ (List.sublist_cons_self _ _)
    · rw [if_neg ht]
      by_cases hpf : prev.free
      · rw [allocIds_cons, if_pos hpf, allocIds_cons, if_pos hpf]
        exact ih n
      · rw [allocIds_cons, if_neg hpf, allocIds_cons, if_neg hpf]
        exact List.Sublist.cons₂ _ (ih n)

theorem free_block_allocIds (s : PhysicalMemory) (id : Int) :
    (allocIds (s.free_block id).blocks).Sublist (allocIds s.blocks) := by
  unfold PhysicalMemory.free_block
  cases hb : s.blocks with
  | nil => exact List.Sublist.refl _
  | cons b rest =>
    dsimp only []
    by_cases ht : free_target b id
    · rw [if_pos ht]
      obtain ⟨hbf, -⟩ := free_target_not_free ht
      rw [merge_next_allocIds _ _ rfl, allocIds_cons,
        if_neg (by rw [hbf]; simp)]
      exact List.sublist_cons_self _ _
    · rw [if_neg ht]
      exact free_scan_allocIds id rest b

theorem allocIds_alloc_at_perm (size : Nat) (id : Int) :
    ∀ (l : List MemoryBlock) (i : Nat) (hi : i < l.length),
      (l.get ⟨i, hi⟩).free = true →
      (allocIds (alloc_at l i size id)).Perm (id :: allocIds l) := by
  intro l
  induction l with
  | nil =>
    intro i hi
    exact absurd hi (by simp)
  | cons b rest ih =>
    intro i hi hfree
    cases i with
    | zero =>
      have hbf : b.free = true := hfree
      unfold alloc_at
      by_cases he : b.size = size
      · rw [if_pos he, allocIds_cons, if_neg (by simp), allocIds_cons,
          if_pos hbf]
      · rw [if_neg he, allocIds_cons, if_neg (by simp), allocIds_cons,
          if_pos (by exact hbf), allocIds_cons, if_pos hbf]
    | succ i =>
      have hi2 : i < rest.length := by simpa using hi
      show (allocIds (b :: alloc_at rest i size id)).Perm _
      by_cases hbf : b.free
      · rw [allocIds_cons, if_pos hbf, allocIds_cons, if_pos hbf]
        exact ih i hi2 hfree
      · rw [allocIds_cons, if_neg hbf, allocIds_cons, if_neg hbf]
        exact (List.Perm.cons b.id (ih i hi2 hfree)).trans
          (List.Perm.swap id b.id _)

theorem best_fit_idx_some (blocks : List MemoryBlock) (size i : Nat)
    (h : best_fit_idx blocks size = some i) :
    ∃ hi : i < blocks.length,
      (blocks.get ⟨i, hi⟩).free = true ∧ size ≤ (blocks.get ⟨i, hi⟩).size := by
  unfold best_fit_idx at h
  rw [Option.map_eq_some'] at h
  obtain ⟨p, hfold, hpi⟩ := h
  obtain ⟨⟨hfree, hsize⟩, hB, -, -⟩ :=
    best_fit_fold_spec size blocks 0 none p (by simp) hfold
  rcases hB with hB | ⟨k, hk, hpk, hget⟩
  · exact absurd hB (by simp)
  · have hik : i = k := by omega
    subst hik
    exact ⟨hk, by rw [hget]; exact hfree, by rw [hget]; exact hsize⟩

theorem worst_fit_idx_some (blocks : List MemoryBlock) (size i : Nat)
    (h : worst_fit_idx blocks size = some i) :
    ∃ hi : i < blocks.length,
      (blocks.get ⟨i, hi⟩).free = true ∧ size ≤ (blocks.get ⟨i, hi⟩).size := by
  unfold worst_fit_idx at h
  rw [Option.map_eq_some'] at h
  obtain ⟨p, hfold, hpi⟩ := h
  obtain ⟨⟨hfree, hsize⟩, hB⟩ :=
    worst_fit_fold_origin size blocks 0 none p (by simp) hfold
  rcases hB with hB | ⟨k, hk, hpk, hget⟩
  · exact absurd hB (by simp)
  · have hik : i = k := by omega
    subst hik
    exact ⟨hk, by rw [hget]; exact hfree, by rw [hget]; exact hsize⟩

theorem PMInv_alloc_at (s : PhysicalMemory) (n i : Nat)
    (hi : i < s.blocks.length) (hfree : (s.blocks.get ⟨i, hi⟩).free = true)
    (hsz : n ≤ (s.blocks.get ⟨i, hi⟩).size) (h : PMInv s) :
    PMInv { s with blocks := alloc_at s.blocks i n s.next_id
                   next_id := s.next_id + 1 } := by
  obtain ⟨hcontig, hadj, hnodup, hbound⟩ := h
  have hperm := allocIds_alloc_at_perm n s.next_id s.blocks i hi hfree
  refine ⟨?_, ?_, ?_, ?_⟩
  · exact contig_alloc_at s.total_size n s.next_id s.blocks i 0 hi hsz hcontig
  · exact noAdj_alloc_at n s.next_id s.blocks i hi hadj
  · refine hperm.symm.nodup ?_
    refine List.nodup_cons.mpr ⟨?_, hnodup⟩
    intro hmem
    exact absurd (hbound _ hmem) (by omega)
  · intro x hx
    have := hperm.mem_iff.mp hx
    rcases List.mem_cons.mp this with h2 | hmem
    · subst h2
      show s.next_id < s.next_id + 1
      omega
    · have := hbound x hmem
      show x < s.next_id + 1
      omega

theorem PMInv_step (s : PhysicalMemory) (op : PMOp) (h : PMInv s) :
    PMInv (s.step op) := by
  cases op with
  | allocFirst n =>
    show PMInv (s.allocate_first_fit n).2
    unfold PhysicalMemory.allocate_first_fit
    cases hidx : first_fit_idx s.blocks n with
    | none => exact h
    | some i =>
      obtain ⟨hi, hfree, hsz⟩ := first_fit_idx_some s.blocks n i hidx
      exact PMInv_alloc_at s n i hi hfree hsz h
  | allocBest n =>
    show PMInv (s.allocate_best_fit n).2
    unfold PhysicalMemory.allocate_best_fit
    cases hidx : best_fit_idx s.blocks n with
    | none => exact h
    | some i =>
      obtain ⟨hi, hfree, hsz⟩ := best_fit_idx_some s.blocks n i hidx
      exact PMInv_alloc_at s n i hi hfree hsz h
  | allocWorst n =>
    show PMInv (s.allocate_worst_fit n).2
    unfold PhysicalMemory.allocate_worst_fit
    cases hidx : worst_fit_idx s.blocks n with
    | none => exact h
    | some i =>
      obtain ⟨hi, hfree, hsz⟩ := worst_fit_idx_some s.blocks n i hidx
      exact PMInv_alloc_at s n i hi hfree hsz h
  | freeBlock id =>
    obtain ⟨hcontig, hadj, hnodup, hbound⟩ := h
    refine ⟨?_, ?_, ?_, ?_⟩
    · exact contig_free_block s id hcontig
    · exact noAdj_free_block s id hadj
    · exact hnodup.sublist (free_block_allocIds s id)
    · intro x hx
      exact hbound x ((free_block_allocIds s id).mem hx)

theorem pm_step_total (s : PhysicalMemory) (op : PMOp) :
    (s.step op).total_size = s.total_size := by
  cases op with
  | allocFirst n =>
    show (s.allocate_first_fit n).2.total_size = _
    unfold PhysicalMemory.allocate_first_fit
    cases first_fit_idx s.blocks n <;> rfl
  | allocBest n =>
    show (s.allocate_best_fit n).2.total_size = _
    unfold PhysicalMemory.allocate_best_fit
    cases best_fit_idx s.blocks n <;> rfl
  | allocWorst n =>
    show (s.allocate_worst_fit n).2.total_size = _
    unfold PhysicalMemory.allocate_worst_fit
    cases worst_fit_idx s.blocks n <;> rfl
  | freeBlock id => rfl

theorem PMInv_run (ops : List PMOp) :
    ∀ s : PhysicalMemory, PMInv s →
      PMInv (s.run ops) ∧ (s.run ops).total_size = s.total_size := by
  induction ops with
  | nil =>
    intro s h
    exact ⟨h, rfl⟩
  | cons op rest ih =>
    intro s h
    have hstep := PMInv_step s op h
    obtain ⟨h1, h2⟩ := ih (s.step op) hstep
    refine ⟨h1, ?_⟩
    show ((s.step op).run rest).total_size = s.total_size
    rw [h2, pm_step_total]

/-- C5: from a freshly constructed free-list allocator, after any finite
sequence of allocations (under any of the three strategies) and frees,
the block list still covers the arena contiguously from address 0 (hence
is address-ordered with no gaps and no overlaps), the block sizes sum to
`total_size`, no two adjacent blocks are both free, and the ids of the
allocated blocks are pairwise distinct. -/
theorem pm_free_list_invariants (total : Nat) (htotal : 0 < total)
    (ops : List PMOp) :
    contigFrom total 0 ((mkPhysicalMemory total).run ops).blocks ∧
    ((((mkPhysicalMemory total).run ops).blocks.map MemoryBlock.size).sum =
      total) ∧
    List.Chain' (fun a b => a.start ≤ b.start)
      ((mkPhysicalMemory total).run ops).blocks ∧
    noAdjFree ((mkPhysicalMemory total).run ops).blocks ∧
    (allocIds ((mkPhysicalMemory total).run ops).blocks).Nodup := by
  have hinit : PMInv (mkPhysicalMemory total) := by
    refine ⟨⟨rfl, ?_⟩, trivial, ?_, ?_⟩
    · show 0 + total = total
      omega
    · simp [allocIds, mkPhysicalMemory]
    · intro x hx
      simp [allocIds, mkPhysicalMemory] at hx
  obtain ⟨⟨hcontig, hadj, hnodup, -⟩, htot⟩ :=
    PMInv_run ops (mkPhysicalMemory total) hinit
  rw [htot] at hcontig
  have hsum := contig_sum total _ 0 hcontig
  exact ⟨hcontig, by omega, contig_chain_start total _ 0 hcontig, hadj,
    hnodup⟩

/-- Witness for the free-list invariants after a mixed operation
sequence on `FreeList(100)`. -/
theorem pm_free_list_invariants_witness :
    contigFrom 100 0 ((mkPhysicalMemory 100).run
      [PMOp.allocFirst 30, PMOp.allocWorst 20, PMOp.allocBest 10,
       PMOp.freeBlock 2, PMOp.allocFirst 5, PMOp.freeBlock 1,
       PMOp.freeBlock 3]).blocks :=
  (pm_free_list_invariants 100 (by decide)
    [PMOp.allocFirst 30, PMOp.allocWorst 20, PMOp.allocBest 10,
     PMOp.freeBlock 2, PMOp.allocFirst 5, PMOp.freeBlock 1,
     PMOp.freeBlock 3]).1

/-! ## Claim theorems: buddy allocator round trip -/

theorem xor_double (m n : Nat) : (2 * m) ^^^ (2 * n) = 2 * (m ^^^ n) := by
  have h1 : ((2 * m) ^^^ (2 * n)) / 2 = m ^^^ n := by
    rw [Nat.xor_div_two]
    congr 1 <;> omega
  have h2 : ((2 * m) ^^^ (2 * n)) % 2 = (2 * m + 2 * n) % 2 :=
    Nat.xor_mod_two_eq
  omega

theorem xor_even_one (m : Nat) : (2 * m) ^^^ 1 = 2 * m + 1 := by
  have h1 : ((2 * m) ^^^ 1) / 2 = m := by
    rw [Nat.xor_div_two, show (1 : Nat) / 2 = 0 from rfl, Nat.xor_zero,
      show (2 * m) / 2 = m from by omega]
  have h2 : ((2 * m) ^^^ 1) % 2 = (2 * m + 1) % 2 := Nat.xor_mod_two_eq
  omega

/-- On an address aligned past the buddy bit, xor with the buddy bit is
addition: the upper half of a split is the lower half's buddy. -/
theorem xor_two_pow_of_dvd :
    ∀ (k a : Nat), 2 ^ (k + 1) ∣ a → a ^^^ 2 ^ k = a + 2 ^ k := by
  intro k
  induction k with
  | zero =>
    intro a hdvd
    obtain ⟨q, rfl⟩ := hdvd
    rw [show 2 ^ (0 + 1) * q = 2 * q from by ring, pow_zero]
    exact xor_even_one q
  | succ k ih =>
    intro a hdvd
    obtain ⟨q, rfl⟩ := hdvd
    have key : (2 * (2 ^ (k + 1) * q)) ^^^ (2 * 2 ^ k) =
        2 * ((2 ^ (k + 1) * q) ^^^ 2 ^ k) := xor_double _ _
    rw [ih _ ⟨q, rfl⟩] at key
    calc 2 ^ (k + 1 + 1) * q ^^^ 2 ^ (k + 1)
        = (2 * (2 ^ (k + 1) * q)) ^^^ (2 * 2 ^ k) := by
          congr 1 <;> ring
      _ = 2 * (2 ^ (k + 1) * q + 2 ^ k) := key
      _ = 2 ^ (k + 1 + 1) * q + 2 ^ (k + 1) := by ring

/-- On an address aligned to the buddy bit but not past it, xor with the
buddy bit is subtraction. -/
theorem xor_two_pow_of_not_dvd (k a : Nat) (ha : 2 ^ k ∣ a)
    (hna : ¬2 ^ (k + 1) ∣ a) :
    2 ^ k ≤ a ∧ a ^^^ 2 ^ k = a - 2 ^ k ∧ 2 ^ (k + 1) ∣ a - 2 ^ k := by
  obtain ⟨m, rfl⟩ := ha
  have hm : m % 2 = 1 := by
    rcases Nat.even_or_odd m with he | ho
    · exfalso
      obtain ⟨t, rfl⟩ := he
      exact hna ⟨t, by ring⟩
    · obtain ⟨t, rfl⟩ := ho
      omega
  have hmt : m = 2 * (m / 2) + 1 := by omega
  have he : 2 ^ k * m = 2 ^ (k + 1) * (m / 2) + 2 ^ k := by
    conv_lhs => rw [hmt]
    ring
  have hb : 2 ^ k * m - 2 ^ k = 2 ^ (k + 1) * (m / 2) := by
    rw [he]
    omega
  have hxor := xor_two_pow_of_dvd k (2 ^ (k + 1) * (m / 2)) ⟨m / 2, rfl⟩
  have h2 : (2 ^ (k + 1) * (m / 2) + 2 ^ k) ^^^ 2 ^ k =
      2 ^ (k + 1) * (m / 2) := by
    rw [← hxor, Nat.xor_cancel_right]
  refine ⟨Nat.le_mul_of_pos_right _ (by omega), ?_, ⟨m / 2, hb⟩⟩
  rw [he, h2]
  omega

theorem getD_set_ne {α : Type} (l : List α) (i j : Nat) (x d : α)
    (h : i ≠ j) : (l.set i x).getD j d = l.getD j d := by
  rw [List.getD_eq_getElem?_getD, List.getD_eq_getElem?_getD,
    List.getElem?_set_ne h]

theorem mem_orderEntries (k : Nat) (l : List Nat) (p : Nat × Nat) :
    p ∈ orderEntries k l ↔ p.2 = k ∧ p.1 ∈ l := by
  unfold orderEntries
  rw [List.mem_map]
  constructor
  · rintro ⟨a, ha, rfl⟩
    exact ⟨rfl, ha⟩
  · rintro ⟨h2, h1⟩
    exact ⟨p.1, h1, by rw [← h2]⟩

theorem mem_freeRegionsFrom :
    ∀ (fl : List (List Nat)) (n : Nat) (p : Nat × Nat),
      p ∈ freeRegionsFrom n fl ↔
        ∃ j, j < fl.length ∧ p.2 = n + j ∧ p.1 ∈ fl.getD j [] := by
  intro fl
  induction fl with
  | nil =>
    intro n p
    simp [freeRegionsFrom]
  | cons l fl ih =>
    intro n p
    show p ∈ orderEntries n l ++ freeRegionsFrom (n + 1) fl ↔ _
    rw [List.mem_append, mem_orderEntries, ih (n + 1) p]
    constructor
    · rintro (⟨h2, h1⟩ | ⟨j, hj, h2, h1⟩)
      · exact ⟨0, by simp, by omega, h1⟩
      · exact ⟨j + 1, by simpa using hj, by omega, h1⟩
    · rintro ⟨j, hj, h2, h1⟩
      cases j with
      | zero => exact Or.inl ⟨by omega, h1⟩
      | succ j => exact Or.inr ⟨j, by simpa using hj, by omega, h1⟩

theorem freeRegionsFrom_decomp :
    ∀ (fl : List (List Nat)) (n k : Nat), k < fl.length →
      (freeRegionsFrom n fl).Perm
        (orderEntries (n + k) (fl.getD k []) ++
          freeRegionsFrom n (fl.set k [])) := by
  intro fl
  induction fl with
  | nil =>
    intro n k hk
    exact absurd hk (by simp)
  | cons l fl ih =>
    intro n k hk
    cases k with
    | zero =>
      show (orderEntries n l ++ freeRegionsFrom (n + 1) fl).Perm
        (orderEntries (n + 0) l ++
          (orderEntries n [] ++ freeRegionsFrom (n + 1) fl))
      rw [Nat.add_zero]
      exact List.Perm.refl _
    | succ k =>
      have hk2 : k < fl.length := by simpa using hk
      have step := ih (n + 1) k hk2
      show (orderEntries n l ++ freeRegionsFrom (n + 1) fl).Perm
        (orderEntries (n + (k + 1)) (fl.getD k []) ++
          (orderEntries n l ++ freeRegionsFrom (n + 1) (fl.set k [])))
      refine List.Perm.trans (List.Perm.append_left _ step) ?_
      rw [show n + (k + 1) = n + 1 + k from by omega, ← List.append_assoc,
        ← List.append_assoc]
      exact List.Perm.append_right _ List.perm_append_comm

theorem freeRegions_decomp (fl : List (List Nat)) (k : Nat)
    (hk : k < fl.length) :
    (freeRegions fl).Perm
      (orderEntries k (fl.getD k []) ++ freeRegions (fl.set k [])) := by
  have h := freeRegionsFrom_decomp fl 0 k hk
  rwa [Nat.zero_add] at h

theorem freeRegions_set (fl : List (List Nat)) (k : Nat) (l2 : List Nat)
    (hk : k < fl.length) :
    (freeRegions (fl.set k l2)).Perm
      (orderEntries k l2 ++ freeRegions (fl.set k [])) := by
  have h := freeRegions_decomp (fl.set k l2) k
    (by rw [List.length_set]; exact hk)
  rwa [getD_set_self _ _ _ _ hk, List.set_set] at h

theorem RegWf_perm (total : Nat) {rs rs2 : List (Nat × Nat)}
    (hp : rs.Perm rs2) (h : RegWf total rs) : RegWf total rs2 := by
  obtain ⟨h1, h2, h3⟩ := h
  refine ⟨?_, ?_, ?_⟩
  · intro p hmem
    exact h1 p (hp.mem_iff.mpr hmem)
  · exact (hp.pairwise_iff (fun h => h.symm)).mp h2
  · rw [← (hp.map (fun p => 2 ^ p.2)).sum_eq]
    exact h3

theorem mem_blockIval_self (p : Nat × Nat) : p.1 ∈ blockIval p := by
  unfold blockIval
  rw [Finset.mem_Ico]
  exact ⟨le_rfl, by have := Nat.pos_pow_of_pos p.2 (by omega : 0 < 2); omega⟩

theorem RegWf_replace (total : Nat) (a k : Nat) (X pieces : List (Nat × Nat))
    (h : RegWf total ((a, k) :: X))
    (hpw : ∀ p ∈ pieces, 2 ^ p.2 ∣ p.1 ∧ blockIval p ⊆ blockIval (a, k))
    (hpd : pieces.Pairwise (fun p q => Disjoint (blockIval p) (blockIval q)))
    (hps : (pieces.map fun p => 2 ^ p.2).sum = 2 ^ k) :
    RegWf total (pieces ++ X) := by
  obtain ⟨h1, h2, h3⟩ := h
  have hak := h1 (a, k) (List.mem_cons_self _ _)
  refine ⟨?_, ?_, ?_⟩
  · intro p hp
    rcases List.mem_append.mp hp with hp | hp
    · obtain ⟨hd, hsub⟩ := hpw p hp
      refine ⟨hd, ?_⟩
      have hfirst := hsub (mem_blockIval_self p)
      have hlast : p.1 + 2 ^ p.2 - 1 ∈ blockIval p := by
        unfold blockIval
        rw [Finset.mem_Ico]
        have := Nat.pos_pow_of_pos p.2 (by omega : 0 < 2)
        omega
      have hlast2 := hsub hlast
      unfold blockIval at hfirst hlast2
      rw [Finset.mem_Ico] at hfirst hlast2
      have hp2 := Nat.pos_pow_of_pos p.2 (by omega : 0 < 2)
      have := hak.2
      omega
    · exact h1 p (List.mem_cons_of_mem _ hp)
  · rw [List.pairwise_append]
    refine ⟨hpd, (List.pairwise_cons.mp h2).2, ?_⟩
    intro p hp q hq
    exact Finset.disjoint_of_subset_left (hpw p hp).2
      ((List.pairwise_cons.mp h2).1 q hq)
  · rw [List.map_append, List.sum_append, hps]
    rw [List.map_cons, List.sum_cons] at h3
    dsimp only [] at h3
    omega

theorem RegWf_merge (total k cur bdy : Nat) (X : List (Nat × Nat))
    (hbdy : bdy = cur ^^^ 2 ^ k)
    (h : RegWf total ((cur, k) :: (bdy, k) :: X)) :
    RegWf total ((min cur bdy, k + 1) :: X) ∧
      2 ^ (k + 1) ∣ min cur bdy := by
  obtain ⟨h1, h2, h3⟩ := h
  have hcur := h1 (cur, k) (by simp)
  have hb := h1 (bdy, k) (by simp [List.mem_cons])
  obtain ⟨hcd, hcr⟩ := hcur
  obtain ⟨hbd, hbr⟩ := hb
  dsimp only [] at hcd hcr hbd hbr
  have hpw := List.pairwise_cons.mp h2
  have hpw2 := List.pairwise_cons.mp hpw.2
  have hp2k := Nat.pos_pow_of_pos k (by omega : 0 < 2)
  have hsplit : ∀ m : Nat, m = min cur bdy → bdy = cur + 2 ^ k ∨
      cur = bdy + 2 ^ k → True := fun _ _ _ => trivial
  have hkey : (min cur bdy = cur ∧ bdy = cur + 2 ^ k ∧ 2 ^ (k + 1) ∣ cur) ∨
      (min cur bdy = bdy ∧ cur = bdy + 2 ^ k ∧ 2 ^ (k + 1) ∣ bdy) := by
    by_cases hdvd : 2 ^ (k + 1) ∣ cur
    · have he : bdy = cur + 2 ^ k := by
        rw [hbdy, xor_two_pow_of_dvd k cur hdvd]
      left
      exact ⟨by omega, he, hdvd⟩
    · obtain ⟨hle, hxor, hdvd2⟩ := xor_two_pow_of_not_dvd k cur hcd hdvd
      have he : bdy = cur - 2 ^ k := by rw [hbdy, hxor]
      right
      refine ⟨by omega, by omega, ?_⟩
      rw [he]
      exact hdvd2
  have hunion : ∀ lo : Nat, lo = min cur bdy →
      blockIval (lo, k + 1) = blockIval (cur, k) ∪ blockIval (bdy, k) := by
    intro lo hlo
    rcases hkey with ⟨hm, he, -⟩ | ⟨hm, he, -⟩
    · unfold blockIval
      dsimp only []
      rw [hlo, hm, he]
      rw [Finset.Ico_union_Ico_eq_Ico (by omega) (by omega)]
      congr 1
      rw [pow_succ]
      omega
    · unfold blockIval
      dsimp only []
      rw [hlo, hm, he, Finset.union_comm]
      rw [Finset.Ico_union_Ico_eq_Ico (by omega) (by omega)]
      congr 1
      rw [pow_succ]
      omega
  constructor
  · refine ⟨?_, ?_, ?_⟩
    · intro p hp
      rcases List.mem_cons.mp hp with rfl | hp
      · constructor
        · rcases hkey with ⟨hm, -, hd⟩ | ⟨hm, -, hd⟩ <;> simp only [] <;>
            rw [hm] <;> exact hd
        · show min cur bdy + 2 ^ (k + 1) ≤ total
          rcases hkey with ⟨hm, he, -⟩ | ⟨hm, he, -⟩ <;> rw [hm, pow_succ] <;>
            omega
      · exact h1 p (List.mem_cons_of_mem _ (List.mem_cons_of_mem _ hp))
    · rw [List.pairwise_cons]
      refine ⟨?_, hpw2.2⟩
      intro q hq
      rw [hunion (min cur bdy) rfl, Finset.disjoint_union_left]
      exact ⟨hpw.1 q (List.mem_cons_of_mem _ hq), hpw2.1 q hq⟩
    · rw [List.map_cons, List.sum_cons] at h3 ⊢
      rw [List.map_cons, List.sum_cons] at h3
      dsimp only [] at h3 ⊢
      rw [pow_succ]
      omega
  · rcases hkey with ⟨hm, -, hd⟩ | ⟨hm, -, hd⟩ <;> rw [hm] <;> exact hd

theorem Ico_disjoint_of_le {a b c d : Nat} (h : b ≤ c) :
    Disjoint (Finset.Ico a b) (Finset.Ico c d) := by
  rw [Finset.disjoint_left]
  intro x hx hx2
  rw [Finset.mem_Ico] at hx hx2
  omega

theorem orderEntries_cons (k x : Nat) (l : List Nat) :
    orderEntries k (x :: l) = (x, k) :: orderEntries k l := rfl

theorem mem_freeRegions (fl : List (List Nat)) (p : Nat × Nat) :
    p ∈ freeRegions fl ↔ p.2 < fl.length ∧ p.1 ∈ fl.getD p.2 [] := by
  unfold freeRegions
  rw [mem_freeRegionsFrom]
  constructor
  · rintro ⟨j, hj, h2, h1⟩
    rw [show p.2 = j from by omega]
    exact ⟨hj, h1⟩
  · rintro ⟨hj, h1⟩
    exact ⟨p.2, hj, by omega, h1⟩

theorem freeRegions_push (fl : List (List Nat)) (k x : Nat)
    (hk : k < fl.length) :
    (freeRegions (fl.set k (x :: fl.getD k []))).Perm
      ((x, k) :: freeRegions fl) := by
  have h1 := freeRegions_set fl k (x :: fl.getD k []) hk
  rw [orderEntries_cons] at h1
  refine h1.trans ?_
  show ((x, k) :: (orderEntries k (fl.getD k []) ++
    freeRegions (fl.set k []))).Perm _
  exact List.Perm.cons _ (freeRegions_decomp fl k hk).symm

theorem freeRegions_pop (fl : List (List Nat)) (k x : Nat)
    (rest : List Nat) (hk : k < fl.length)
    (hget : fl.getD k [] = x :: rest) :
    (freeRegions fl).Perm ((x, k) :: freeRegions (fl.set k rest)) := by
  have h1 := freeRegions_decomp fl k hk
  rw [hget, orderEntries_cons] at h1
  refine h1.trans ?_
  show ((x, k) :: (orderEntries k rest ++ freeRegions (fl.set k []))).Perm _
  exact List.Perm.cons _ (freeRegions_set fl k rest hk).symm

theorem freeRegions_erase (fl : List (List Nat)) (k b : Nat)
    (hk : k < fl.length) (hb : b ∈ fl.getD k []) :
    (freeRegions fl).Perm
      ((b, k) :: freeRegions (fl.set k ((fl.getD k []).erase b))) := by
  have h1 := freeRegions_decomp fl k hk
  have h2 : (orderEntries k (fl.getD k [])).Perm
      ((b, k) :: orderEntries k ((fl.getD k []).erase b)) := by
    have h3 := (List.perm_cons_erase hb).map (fun a => (a, k))
    exact h3
  refine h1.trans ?_
  refine (List.Perm.append_right _ h2).trans ?_
  show ((b, k) :: (orderEntries k ((fl.getD k []).erase b) ++
    freeRegions (fl.set k []))).Perm _
  exact List.Perm.cons _ (freeRegions_set fl k _ hk).symm

theorem noBuddyPairs_subset (fl fl2 : List (List Nat))
    (hsub : ∀ k, ∀ a, a ∈ fl2.getD k [] → a ∈ fl.getD k [])
    (hn : noBuddyPairs fl) : noBuddyPairs fl2 := by
  intro k a ha hmem
  exact hn k a (hsub k a ha) (hsub k _ hmem)

theorem mem_splitEntries (addr target : Nat) :
    ∀ cur (p : Nat × Nat), p ∈ splitEntries addr target cur ↔
      ∃ j, target ≤ j ∧ j < cur ∧ p = (addr + 2 ^ j, j) := by
  intro cur
  induction cur with
  | zero =>
    intro p
    rw [splitEntries, if_pos (Nat.zero_le _)]
    simp only [List.not_mem_nil, false_iff]
    rintro ⟨j, h1, h2, h3⟩
    omega
  | succ m ih =>
    intro p
    rw [splitEntries]
    by_cases hmt : m + 1 ≤ target
    · rw [if_pos hmt]
      simp only [List.not_mem_nil, false_iff]
      rintro ⟨j, h1, h2, h3⟩
      omega
    · rw [if_neg hmt]
      simp only [Nat.add_sub_cancel, List.mem_cons, ih]
      constructor
      · rintro (rfl | ⟨j, h1, h2, h3⟩)
        · exact ⟨m, by omega, by omega, rfl⟩
        · exact ⟨j, h1, by omega, h3⟩
      · rintro ⟨j, h1, h2, h3⟩
        by_cases hjm : j = m
        · subst hjm
          exact Or.inl h3
        · exact Or.inr ⟨j, h1, by omega, h3⟩

theorem splitEntries_sum (addr target : Nat) :
    ∀ cur, target ≤ cur →
      ((splitEntries addr target cur).map (fun p => 2 ^ p.2)).sum =
        2 ^ cur - 2 ^ target := by
  intro cur
  induction cur with
  | zero =>
    intro h
    rw [splitEntries, if_pos (Nat.zero_le _)]
    have : target = 0 := by omega
    subst this
    rfl
  | succ m ih =>
    intro h
    rw [splitEntries]
    by_cases hmt : m + 1 ≤ target
    · rw [if_pos hmt]
      have : target = m + 1 := by omega
      subst this
      simp
    · rw [if_neg hmt]
      simp only [Nat.add_sub_cancel, List.map_cons, List.sum_cons]
      rw [ih (by omega)]
      have h1 : 2 ^ target ≤ 2 ^ m :=
        Nat.pow_le_pow_right (by omega) (by omega)
      have h2 : (2 : Nat) ^ (m + 1) = 2 ^ m * 2 := pow_succ 2 m
      omega

theorem splitEntries_bounds (addr target cur : Nat)
    (hd : 2 ^ cur ∣ addr) :
    ∀ p ∈ splitEntries addr target cur,
      2 ^ p.2 ∣ p.1 ∧ blockIval p ⊆ blockIval (addr, cur) := by
  intro p hp
  obtain ⟨j, hj1, hj2, rfl⟩ := (mem_splitEntries addr target cur p).mp hp
  have hdj : 2 ^ j ∣ addr :=
    dvd_trans (pow_dvd_pow 2 (by omega)) hd
  constructor
  · exact dvd_add hdj dvd_rfl
  · unfold blockIval
    dsimp only []
    apply Finset.Ico_subset_Ico
    · omega
    · have h1 : 2 ^ j + 2 ^ j ≤ 2 ^ cur := by
        have h2 : (2 : Nat) ^ (j + 1) = 2 ^ j * 2 := pow_succ 2 j
        have h3 : (2 : Nat) ^ (j + 1) ≤ 2 ^ cur :=
          Nat.pow_le_pow_right (by omega) (by omega)
        omega
      omega

theorem splitEntries_pairwise (addr target : Nat) :
    ∀ cur, (splitEntries addr target cur).Pairwise
      (fun p q => Disjoint (blockIval p) (blockIval q)) := by
  intro cur
  induction cur with
  | zero =>
    rw [splitEntries, if_pos (Nat.zero_le _)]
    exact List.Pairwise.nil
  | succ m ih =>
    rw [splitEntries]
    by_cases hmt : m + 1 ≤ target
    · rw [if_pos hmt]
      exact List.Pairwise.nil
    · rw [if_neg hmt]
      simp only [Nat.add_sub_cancel]
      rw [List.pairwise_cons]
      refine ⟨?_, ih⟩
      intro q hq
      obtain ⟨j, hj1, hj2, rfl⟩ := (mem_splitEntries addr target m q).mp hq
      unfold blockIval
      dsimp only []
      refine (Ico_disjoint_of_le ?_).symm
      have h2 : (2 : Nat) ^ (j + 1) = 2 ^ j * 2 := pow_succ 2 j
      have h3 : (2 : Nat) ^ (j + 1) ≤ 2 ^ m :=
        Nat.pow_le_pow_right (by omega) (by omega)
      omega

theorem split_down_length (addr target : Nat) :
    ∀ cur (fl : List (List Nat)),
      (split_down fl addr cur target).length = fl.length := by
  intro cur
  induction cur with
  | zero =>
    intro fl
    rw [split_down, if_pos (Nat.zero_le _)]
  | succ m ih =>
    intro fl
    rw [split_down]
    by_cases hmt : m + 1 ≤ target
    · rw [if_pos hmt]
    · rw [if_neg hmt]
      dsimp only []
      simp only [Nat.add_sub_cancel]
      rw [ih, List.length_set]

theorem split_down_getD (addr target : Nat) :
    ∀ cur (fl : List (List Nat)), cur ≤ fl.length →
      ∀ k, (split_down fl addr cur target).getD k [] =
        if target ≤ k ∧ k < cur then (addr + 2 ^ k) :: fl.getD k []
        else fl.getD k [] := by
  intro cur
  induction cur with
  | zero =>
    intro fl hlen k
    rw [split_down, if_pos (Nat.zero_le _), if_neg (by omega)]
  | succ m ih =>
    intro fl hlen k
    rw [split_down]
    by_cases hmt : m + 1 ≤ target
    · rw [if_pos hmt, if_neg (by omega)]
    · rw [if_neg hmt]
      dsimp only []
      simp only [Nat.add_sub_cancel]
      rw [ih _ (by rw [List.length_set]; omega) k]
      by_cases hk : target ≤ k ∧ k < m
      · rw [if_pos hk, if_pos (by omega),
          getD_set_ne _ _ _ _ _ (by omega)]
      · rw [if_neg hk]
        by_cases hkm : k = m
        · subst hkm
          rw [if_pos (by omega), getD_set_self _ _ _ _ (by omega),
            Nat.one_shiftLeft]
        · rw [if_neg (by omega), getD_set_ne _ _ _ _ _ (by omega)]

theorem split_down_freeRegions (addr target : Nat) :
    ∀ cur (fl : List (List Nat)), cur ≤ fl.length →
      (freeRegions (split_down fl addr cur target)).Perm
        (splitEntries addr target cur ++ freeRegions fl) := by
  intro cur
  induction cur with
  | zero =>
    intro fl hlen
    rw [split_down, if_pos (Nat.zero_le _), splitEntries,
      if_pos (Nat.zero_le _), List.nil_append]
  | succ m ih =>
    intro fl hlen
    rw [split_down, splitEntries]
    by_cases hmt : m + 1 ≤ target
    · rw [if_pos hmt, if_pos hmt, List.nil_append]
    · rw [if_neg hmt, if_neg hmt]
      dsimp only []
      simp only [Nat.add_sub_cancel]
      refine (ih _ (by rw [List.length_set]; omega)).trans ?_
      rw [Nat.one_shiftLeft]
      refine (List.Perm.append_left _
        (freeRegions_push fl m (addr + 2 ^ m) (by omega))).trans ?_
      exact List.perm_middle

theorem buddy_alloc_inv (s : BuddyAllocator) (size : Nat)
    (h : BuddyInv s) :
    BuddyInv (s.allocate_buddy size).2 ∧
    (s.allocate_buddy size).2.total_memory = s.total_memory ∧
    (s.allocate_buddy size).2.max_order = s.max_order := by
  obtain ⟨htot, hlen, hreg, hnb⟩ := h
  unfold BuddyAllocator.allocate_buddy
  by_cases h1 : size = 0 ∨ size > s.total_memory
  · rw [if_pos h1]
    exact ⟨⟨htot, hlen, hreg, hnb⟩, rfl, rfl⟩
  · rw [if_neg h1]
    dsimp only []
    by_cases h2 : log2_exact (next_power_of_two size) > s.max_order
    · rw [if_pos h2]
      exact ⟨⟨htot, hlen, hreg, hnb⟩, rfl, rfl⟩
    · rw [if_neg h2]
      rcases hfn : first_nonempty_from s.free_lists s.max_order
          (log2_exact (next_power_of_two size)) with _ | cur
      · exact ⟨⟨htot, hlen, hreg, hnb⟩, rfl, rfl⟩
      · dsimp only []
        obtain ⟨htc, hcm, hne⟩ := first_nonempty_from_some s.free_lists
          s.max_order (s.max_order + 1) (log2_exact (next_power_of_two size))
          cur (by omega) hfn
        rcases hget : s.free_lists.getD cur [] with _ | ⟨x, rest⟩
        · exact absurd hget hne
        · simp only [List.headD_cons, List.tail_cons]
          have hcl : cur < s.free_lists.length := by omega
          have hpop := freeRegions_pop s.free_lists cur x rest hcl hget
          have hreg1 : RegWf s.total_memory
              ((x, cur) :: (freeRegions (s.free_lists.set cur rest) ++
                s.allocated_blocks)) :=
            RegWf_perm _ (List.Perm.append_right s.allocated_blocks hpop)
              hreg
          have hdx := hreg1.1 (x, cur) (List.mem_cons_self _ _)
          dsimp only [] at hdx
          have hpw : ∀ p ∈ (x, log2_exact (next_power_of_two size)) ::
              splitEntries x (log2_exact (next_power_of_two size)) cur,
              2 ^ p.2 ∣ p.1 ∧ blockIval p ⊆ blockIval (x, cur) := by
            intro p hp
            rcases List.mem_cons.mp hp with rfl | hp
            · refine ⟨dvd_trans (pow_dvd_pow 2 htc) hdx.1, ?_⟩
              unfold blockIval
              dsimp only []
              apply Finset.Ico_subset_Ico le_rfl
              have := Nat.pow_le_pow_right (show 0 < 2 by omega) htc
              omega
            · exact splitEntries_bounds x _ cur hdx.1 p hp
          have hpd : ((x, log2_exact (next_power_of_two size)) ::
              splitEntries x (log2_exact (next_power_of_two size))
                cur).Pairwise
              (fun p q => Disjoint (blockIval p) (blockIval q)) := by
            rw [List.pairwise_cons]
            refine ⟨?_, splitEntries_pairwise x _ cur⟩
            intro q hq
            obtain ⟨j, hj1, hj2, rfl⟩ := (mem_splitEntries x _ cur q).mp hq
            unfold blockIval
            dsimp only []
            refine Ico_disjoint_of_le ?_
            have := Nat.pow_le_pow_right (show 0 < 2 by omega) hj1
            omega
          have hps : (((x, log2_exact (next_power_of_two size)) ::
              splitEntries x (log2_exact (next_power_of_two size))
                cur).map fun p => 2 ^ p.2).sum = 2 ^ cur := by
            rw [List.map_cons, List.sum_cons, splitEntries_sum x _ cur htc]
            dsimp only []
            have := Nat.pow_le_pow_right (show 0 < 2 by omega) htc
            omega
          have hrep := RegWf_replace s.total_memory x cur
            (freeRegions (s.free_lists.set cur rest) ++ s.allocated_blocks)
            _ hreg1 hpw hpd hps
          have hlen1 : (s.free_lists.set cur rest).length =
              s.max_order + 1 := by
            rw [List.length_set]
            exact hlen
          have hsd := split_down_freeRegions x
            (log2_exact (next_power_of_two size)) cur
            (s.free_lists.set cur rest) (by omega)
          have hchain : (freeRegions (split_down
              (s.free_lists.set cur rest) x cur
              (log2_exact (next_power_of_two size))) ++
                ((x, log2_exact (next_power_of_two size)) ::
                  s.allocated_blocks)).Perm
              (((x, log2_exact (next_power_of_two size)) ::
                splitEntries x (log2_exact (next_power_of_two size)) cur) ++
                (freeRegions (s.free_lists.set cur rest) ++
                  s.allocated_blocks)) := by
            refine (List.Perm.append_right _ hsd).trans ?_
            refine List.Perm.trans List.perm_middle ?_
            rw [List.append_assoc]
            exact List.Perm.refl _
          have hnew : RegWf s.total_memory
              (freeRegions (split_down (s.free_lists.set cur rest) x cur
                (log2_exact (next_power_of_two size))) ++
                ((x, log2_exact (next_power_of_two size)) ::
                  s.allocated_blocks)) :=
            RegWf_perm _ hchain.symm hrep
          have hgd := split_down_getD x
            (log2_exact (next_power_of_two size)) cur
            (s.free_lists.set cur rest) (by omega)
          have hF1 : ∀ k a, a ∈ (s.free_lists.set cur rest).getD k [] →
              a ∈ s.free_lists.getD k [] := by
            intro k a ha
            by_cases hkc : k = cur
            · subst hkc
              rw [getD_set_self _ _ _ _ hcl] at ha
              rw [hget]
              exact List.mem_cons_of_mem _ ha
            · rwa [getD_set_ne _ _ _ _ _ (fun he => hkc he.symm)] at ha
          have hF2 : ∀ k, x ∉ (split_down (s.free_lists.set cur rest) x cur
              (log2_exact (next_power_of_two size))).getD k [] := by
            intro k hx
            have hk : k < (split_down (s.free_lists.set cur rest) x cur
                (log2_exact (next_power_of_two size))).length := by
              by_contra hge
              rw [List.getD_eq_default _ _ (by omega)] at hx
              exact absurd hx (List.not_mem_nil x)
            have hmem : ((x : Nat), k) ∈ freeRegions (split_down
                (s.free_lists.set cur rest) x cur
                (log2_exact (next_power_of_two size))) :=
              (mem_freeRegions _ _).mpr ⟨hk, hx⟩
            have h3 := (List.pairwise_append.mp hnew.2.1).2.2
            have hdisj := h3 (x, k) hmem
              (x, log2_exact (next_power_of_two size))
              (List.mem_cons_self _ _)
            exact Finset.disjoint_left.mp hdisj (mem_blockIval_self (x, k))
              (mem_blockIval_self (x, log2_exact (next_power_of_two size)))
          have hF2' : ∀ k, x ∉ (s.free_lists.set cur rest).getD k [] := by
            intro k hx
            apply hF2 k
            rw [hgd k]
            by_cases hk : log2_exact (next_power_of_two size) ≤ k ∧ k < cur
            · rw [if_pos hk]
              exact List.mem_cons_of_mem _ hx
            · rwa [if_neg hk]
          refine ⟨⟨htot, ?_, hnew, ?_⟩, by trivial, by trivial⟩
          · show (split_down (s.free_lists.set cur rest) x cur
              (log2_exact (next_power_of_two size))).length =
                s.max_order + 1
            rw [split_down_length, hlen1]
          · intro k a ha hb
            rw [Nat.one_shiftLeft] at hb
            rw [hgd k] at ha hb
            have hp2k := Nat.pos_pow_of_pos k (show 0 < 2 by omega)
            by_cases hk : log2_exact (next_power_of_two size) ≤ k ∧ k < cur
            · rw [if_pos hk] at ha hb
              have hdvd : 2 ^ (k + 1) ∣ x :=
                dvd_trans (pow_dvd_pow 2 (by omega)) hdx.1
              have hxor : x ^^^ 2 ^ k = x + 2 ^ k :=
                xor_two_pow_of_dvd k x hdvd
              have hinv : (x + 2 ^ k) ^^^ 2 ^ k = x := by
                rw [← hxor, Nat.xor_assoc, Nat.xor_self, Nat.xor_zero]
              rcases List.mem_cons.mp ha with rfl | ha'
              · rw [hinv] at hb
                rcases List.mem_cons.mp hb with heq | hb'
                · omega
                · exact hF2' k hb'
              · rcases List.mem_cons.mp hb with heq | hb'
                · have ha2 : a = x := by
                    have : a ^^^ 2 ^ k ^^^ 2 ^ k = (x + 2 ^ k) ^^^ 2 ^ k :=
                      by rw [heq]
                    rwa [Nat.xor_assoc, Nat.xor_self, Nat.xor_zero, hinv]
                      at this
                  subst ha2
                  exact hF2' k ha'
                · refine hnb k a (hF1 k a ha') ?_
                  rw [Nat.one_shiftLeft]
                  exact hF1 k _ hb'
            · rw [if_neg hk] at ha hb
              refine hnb k a (hF1 k a ha) ?_
              rw [Nat.one_shiftLeft]
              exact hF1 k _ hb

theorem coalesce_up_spec (total : Nat) (ab : List (Nat × Nat))
    (max_order : Nat) :
    ∀ d (fl : List (List Nat)) (addr order : Nat),
      max_order - order ≤ d →
      fl.length = max_order + 1 → order ≤ max_order →
      RegWf total ((addr, order) :: (freeRegions fl ++ ab)) →
      noBuddyPairs fl →
      (order ≤ (coalesce_up fl max_order addr order).2.1 ∧
        (coalesce_up fl max_order addr order).2.1 ≤ max_order) ∧
      RegWf total (((coalesce_up fl max_order addr order).1,
        (coalesce_up fl max_order addr order).2.1) ::
        (freeRegions (coalesce_up fl max_order addr order).2.2 ++ ab)) ∧
      noBuddyPairs (coalesce_up fl max_order addr order).2.2 ∧
      ((coalesce_up fl max_order addr order).2.1 = max_order ∨
        ((coalesce_up fl max_order addr order).1 ^^^
          (1 <<< (coalesce_up fl max_order addr order).2.1)) ∉
          (coalesce_up fl max_order addr order).2.2.getD
            (coalesce_up fl max_order addr order).2.1 []) ∧
      (coalesce_up fl max_order addr order).2.2.length = max_order + 1 := by
  intro d
  induction d with
  | zero =>
    intro fl addr order hd hlen horder hreg hnb
    rw [coalesce_up, if_pos (by omega : order ≥ max_order)]
    dsimp only []
    exact ⟨⟨le_rfl, horder⟩, hreg, hnb, Or.inl (by omega), hlen⟩
  | succ d ih =>
    intro fl addr order hd hlen horder hreg hnb
    rw [coalesce_up]
    by_cases hom : order ≥ max_order
    · rw [if_pos hom]
      dsimp only []
      exact ⟨⟨le_rfl, horder⟩, hreg, hnb, Or.inl (by omega), hlen⟩
    · rw [if_neg hom]
      dsimp only []
      by_cases hmem : addr ^^^ (1 <<< order) ∈ fl.getD order []
      · rw [if_pos hmem]
        have herase := freeRegions_erase fl order (addr ^^^ (1 <<< order))
          (by omega) hmem
        have hreg2 : RegWf total ((addr, order) ::
            (addr ^^^ (1 <<< order), order) ::
            (freeRegions (fl.set order
              ((fl.getD order []).erase (addr ^^^ (1 <<< order)))) ++
              ab)) :=
          RegWf_perm total
            (List.Perm.cons _ (List.Perm.append_right ab herase)) hreg
        have hmerge := RegWf_merge total order addr (addr ^^^ (1 <<< order))
          (freeRegions (fl.set order
            ((fl.getD order []).erase (addr ^^^ (1 <<< order)))) ++ ab)
          (by rw [Nat.one_shiftLeft]) hreg2
        have hnb2 : noBuddyPairs (fl.set order
            ((fl.getD order []).erase (addr ^^^ (1 <<< order)))) := by
          refine noBuddyPairs_subset fl _ ?_ hnb
          intro k a ha
          by_cases hk : k = order
          · subst hk
            rw [getD_set_self _ _ _ _ (by omega)] at ha
            exact List.mem_of_mem_erase ha
          · rwa [getD_set_ne _ _ _ _ _ (fun he => hk he.symm)] at ha
        obtain ⟨⟨hq1, hq2⟩, hr1, hr2, hr3, hr4⟩ := ih
          (fl.set order ((fl.getD order []).erase (addr ^^^ (1 <<< order))))
          (min addr (addr ^^^ (1 <<< order))) (order + 1) (by omega)
          (by rw [List.length_set]; exact hlen) (by omega) hmerge.1 hnb2
        exact ⟨⟨by omega, hq2⟩, hr1, hr2, hr3, hr4⟩
      · rw [if_neg hmem]
        dsimp only []
        exact ⟨⟨le_rfl, by omega⟩, hreg, hnb, Or.inr hmem, hlen⟩

theorem lookup_alloc_some_of_mem (l : List (Nat × Nat)) (a : Nat)
    (h : a ∈ l.map Prod.fst) : ∃ o, lookup_alloc l a = some o := by
  induction l with
  | nil => exact absurd h (by simp)
  | cons p t ih =>
    unfold lookup_alloc
    by_cases hp : p.1 = a
    · rw [List.find?_cons_of_pos _ (by simpa using hp)]
      exact ⟨p.2, rfl⟩
    · rw [List.find?_cons_of_neg _ (by simpa using hp)]
      rcases (by simpa using h : a = p.1 ∨ ∃ x, (a, x) ∈ t) with heq | ⟨x, hm⟩
      · exact absurd heq.symm hp
      · exact ih (List.mem_map_of_mem Prod.fst hm)

theorem lookup_erase_perm (addr : Nat) :
    ∀ (l : List (Nat × Nat)) (ord : Nat),
      lookup_alloc l addr = some ord →
      l.Perm ((addr, ord) :: l.eraseP (fun p => p.1 == addr)) := by
  intro l
  induction l with
  | nil =>
    intro ord h
    exact absurd h (by simp [lookup_alloc])
  | cons q t ih =>
    intro ord h
    unfold lookup_alloc at h
    by_cases hq : q.1 = addr
    · rw [List.find?_cons_of_pos _ (by simpa using hq)] at h
      have h2 : q.2 = ord := by
        simpa using h
      have h3 : q = (addr, ord) := by
        rw [Prod.ext_iff]
        exact ⟨hq, h2⟩
      rw [h3, @List.eraseP_cons_of_pos (Nat × Nat) (addr, ord) t
        (fun p => p.1 == addr) (by simp)]
    · rw [List.find?_cons_of_neg _ (by simpa using hq)] at h
      rw [@List.eraseP_cons_of_neg (Nat × Nat) q t
        (fun p => p.1 == addr) (by simpa using hq)]
      refine (List.Perm.cons q (ih ord h)).trans ?_
      exact List.Perm.swap _ _ _

theorem buddy_free_inv (s : BuddyAllocator) (addr : Nat)
    (h : BuddyInv s) :
    BuddyInv (s.free_buddy addr) ∧
    (s.free_buddy addr).total_memory = s.total_memory ∧
    (s.free_buddy addr).max_order = s.max_order ∧
    (∀ o, lookup_alloc s.allocated_blocks addr = some o →
      (s.free_buddy addr).allocated_blocks =
        s.allocated_blocks.eraseP (fun p => p.1 == addr)) := by
  obtain ⟨htot, hlen, hreg, hnb⟩ := h
  unfold BuddyAllocator.free_buddy
  rcases hl : lookup_alloc s.allocated_blocks addr with _ | ord
  · exact ⟨⟨htot, hlen, hreg, hnb⟩, rfl, rfl,
      fun o ho => Option.noConfusion ho⟩
  · dsimp only []
    have hperm := lookup_erase_perm addr s.allocated_blocks ord hl
    have hreg1 : RegWf s.total_memory ((addr, ord) ::
        (freeRegions s.free_lists ++
          s.allocated_blocks.eraseP (fun p => p.1 == addr))) := by
      refine RegWf_perm _ ?_ hreg
      refine (List.Perm.append_left _ hperm).trans ?_
      exact List.perm_middle
    have hord : ord ≤ s.max_order := by
      have h1 := hreg1.1 (addr, ord) (List.mem_cons_self _ _)
      dsimp only [] at h1
      have hp1 := Nat.pos_pow_of_pos ord (show 0 < 2 by omega)
      have h2 : (2 : Nat) ^ ord ≤ 2 ^ s.max_order := by
        rw [htot] at h1
        omega
      exact (Nat.pow_le_pow_iff_right (by omega)).mp h2
    obtain ⟨⟨hq1, hq2⟩, hr1, hr2, hr3, hr4⟩ := coalesce_up_spec
      s.total_memory (s.allocated_blocks.eraseP (fun p => p.1 == addr))
      s.max_order s.max_order s.free_lists addr ord (by omega) hlen hord
      hreg1 hnb
    set y := (coalesce_up s.free_lists s.max_order addr ord).1 with hydef
    set q := (coalesce_up s.free_lists s.max_order addr ord).2.1 with hqdef
    set M := (coalesce_up s.free_lists s.max_order addr ord).2.2 with hMdef
    have hql : q < M.length := by omega
    have hpush := freeRegions_push M q y hql
    refine ⟨⟨htot, ?_, ?_, ?_⟩, rfl, rfl, fun o ho => rfl⟩
    · show (List.set _ _ _).length = s.max_order + 1
      rw [List.length_set]
      exact hr4
    · exact RegWf_perm _ (List.Perm.append_right _ hpush.symm) hr1
    · intro k a ha hmem
      by_cases hkq : k = q
      · subst hkq
        rw [getD_set_self _ _ _ _ hql] at ha hmem
        have hxy : ∀ b : Nat, b ^^^ (1 <<< q) = b → False := by
          intro b hb
          have h1 : b ^^^ (b ^^^ (1 <<< q)) = b ^^^ b := by rw [hb]
          rw [Nat.xor_cancel_left, Nat.xor_self, Nat.one_shiftLeft] at h1
          have := Nat.pos_pow_of_pos q (show 0 < 2 by omega)
          omega
        rcases hr3 with hqm | hout
        · have hsum := hr1.2.2
          rw [List.map_cons, List.sum_cons] at hsum
          dsimp only [] at hsum
          rw [hqm, htot] at hsum
          have hrest : freeRegions M ++
              s.allocated_blocks.eraseP (fun p => p.1 == addr) = [] := by
            rcases hfr : freeRegions M ++
                s.allocated_blocks.eraseP (fun p => p.1 == addr)
              with _ | ⟨p, t⟩
            · rfl
            · rw [hfr, List.map_cons, List.sum_cons] at hsum
              have := Nat.pos_pow_of_pos p.2 (show 0 < 2 by omega)
              omega
          have hfr0 : freeRegions M = [] :=
            (List.append_eq_nil.mp hrest).1
          have hLnil : ∀ b : Nat, b ∈ M.getD q [] → False := by
            intro b hb
            have hbm := (mem_freeRegions M ((b : Nat), q)).mpr ⟨by omega, hb⟩
            rw [hfr0] at hbm
            exact absurd hbm (List.not_mem_nil _)
          rcases List.mem_cons.mp ha with rfl | haL
          · rcases List.mem_cons.mp hmem with heq | hmemL
            · exact hxy _ heq
            · exact hLnil _ hmemL
          · exact hLnil _ haL
        · rcases List.mem_cons.mp ha with rfl | haL
          · rcases List.mem_cons.mp hmem with heq | hmemL
            · exact hxy _ heq
            · exact hout hmemL
          · rcases List.mem_cons.mp hmem with heq | hmemL
            · have hy2 : y ^^^ (1 <<< q) = a := by
                rw [← heq, Nat.xor_assoc, Nat.xor_self, Nat.xor_zero]
              rw [← hy2] at haL
              exact hout haL
            · exact hr2 q a haL hmemL
      · rw [getD_set_ne _ _ _ _ _ (fun he => hkq he.symm)] at ha hmem
        exact hr2 k a ha hmem

theorem buddy_step_inv (s : BuddyAllocator) (op : BuddyOp)
    (h : BuddyInv s) :
    BuddyInv (s.step op) ∧ (s.step op).total_memory = s.total_memory ∧
    (s.step op).max_order = s.max_order := by
  cases op with
  | alloc size => exact buddy_alloc_inv s size h
  | free addr =>
    obtain ⟨h1, h2, h3, -⟩ := buddy_free_inv s addr h
    exact ⟨h1, h2, h3⟩

theorem buddy_run_inv (ops : List BuddyOp) :
    ∀ s : BuddyAllocator, BuddyInv s →
      BuddyInv (s.run ops) ∧ (s.run ops).total_memory = s.total_memory ∧
      (s.run ops).max_order = s.max_order := by
  induction ops with
  | nil =>
    intro s h
    exact ⟨h, rfl, rfl⟩
  | cons op ops ih =>
    intro s h
    obtain ⟨h1, h2, h3⟩ := buddy_step_inv s op h
    obtain ⟨g1, g2, g3⟩ := ih (s.step op) h1
    exact ⟨g1, by rw [show (s.run (op :: ops)) = ((s.step op).run ops)
      from rfl, g2, h2], by rw [show (s.run (op :: ops)) =
        ((s.step op).run ops) from rfl, g3, h3]⟩

theorem buddy_free_all (addrs : List Nat) :
    ∀ s : BuddyAllocator, BuddyInv s →
      addrs.Perm (s.allocated_blocks.map Prod.fst) →
      BuddyInv (addrs.foldl BuddyAllocator.free_buddy s) ∧
      (addrs.foldl BuddyAllocator.free_buddy s).allocated_blocks = [] ∧
      (addrs.foldl BuddyAllocator.free_buddy s).total_memory =
        s.total_memory ∧
      (addrs.foldl BuddyAllocator.free_buddy s).max_order = s.max_order := by
  induction addrs with
  | nil =>
    intro s h hperm
    have h0 : s.allocated_blocks.map Prod.fst = [] :=
      List.Perm.eq_nil hperm.symm
    exact ⟨h, List.map_eq_nil.mp h0, rfl, rfl⟩
  | cons a rest ih =>
    intro s h hperm
    have hmem : a ∈ s.allocated_blocks.map Prod.fst :=
      hperm.subset (List.mem_cons_self a rest)
    obtain ⟨o, ho⟩ := lookup_alloc_some_of_mem _ _ hmem
    obtain ⟨h1, h2, h3, h4⟩ := buddy_free_inv s a h
    have hab : (s.free_buddy a).allocated_blocks =
        s.allocated_blocks.eraseP (fun p => p.1 == a) := h4 o ho
    have hkeys : rest.Perm ((s.free_buddy a).allocated_blocks.map
        Prod.fst) := by
      rw [hab]
      have hp := (lookup_erase_perm a s.allocated_blocks o ho).map Prod.fst
      have hp2 : (a :: rest).Perm (a ::
          (s.allocated_blocks.eraseP (fun p => p.1 == a)).map Prod.fst) :=
        hperm.trans hp
      exact (List.perm_cons a).mp hp2
    obtain ⟨g1, g2, g3, g4⟩ := ih (s.free_buddy a) h1 hkeys
    refine ⟨g1, g2, ?_, ?_⟩
    · rw [show (a :: rest).foldl BuddyAllocator.free_buddy s =
        rest.foldl BuddyAllocator.free_buddy (s.free_buddy a) from rfl,
        g3, h2]
    · rw [show (a :: rest).foldl BuddyAllocator.free_buddy s =
        rest.foldl BuddyAllocator.free_buddy (s.free_buddy a) from rfl,
        g4, h3]

theorem dvd_lt_add {d x y : Nat} (hx : d ∣ x) (hy : d ∣ y) (h : x < y) :
    x + d ≤ y := by
  obtain ⟨u, rfl⟩ := hx
  obtain ⟨v, rfl⟩ := hy
  have hd : 0 < d := by
    rcases Nat.eq_zero_or_pos d with rfl | hd
    · simp at h
    · exact hd
  have huv : u < v := by
    by_contra hle
    exact absurd (Nat.mul_le_mul_left d (by omega : v ≤ u)) (by omega)
  calc d * u + d = d * (u + 1) := by ring
    _ ≤ d * v := Nat.mul_le_mul_left d (by omega)

theorem sum_card_le :
    ∀ (l : List (Finset Nat)) (S : Finset Nat),
      (∀ t ∈ l, t ⊆ S) → l.Pairwise Disjoint →
      (l.map Finset.card).sum ≤ S.card := by
  intro l
  induction l with
  | nil =>
    intro S hsub hpw
    simp
  | cons t l ih =>
    intro S hsub hpw
    obtain ⟨hd, hpw2⟩ := List.pairwise_cons.mp hpw
    have hsub2 : ∀ u ∈ l, u ⊆ S \ t := by
      intro u hu
      rw [Finset.subset_sdiff]
      exact ⟨hsub u (List.mem_cons_of_mem _ hu), (hd u hu).symm⟩
    have h1 := ih (S \ t) hsub2 hpw2
    have h2 : (S \ t).card = S.card - t.card :=
      Finset.card_sdiff (hsub t (List.mem_cons_self _ _))
    have h3 : t.card ≤ S.card :=
      Finset.card_le_card (hsub t (List.mem_cons_self _ _))
    rw [List.map_cons, List.sum_cons]
    omega

theorem partition_single :
    ∀ (n base : Nat) (rs : List (Nat × Nat)),
      2 ^ n ∣ base →
      (∀ p ∈ rs, 2 ^ p.2 ∣ p.1 ∧ base ≤ p.1 ∧
        p.1 + 2 ^ p.2 ≤ base + 2 ^ n) →
      rs.Pairwise (fun p q => Disjoint (blockIval p) (blockIval q)) →
      ((rs.map fun p => 2 ^ p.2).sum = 2 ^ n) →
      (∀ p ∈ rs, ((p.1 ^^^ 2 ^ p.2), p.2) ∉ rs) →
      rs.Perm [(base, n)] := by
  intro n
  induction n with
  | zero =>
    intro base rs hb hbounds hpw hsum hnbp
    rcases rs with _ | ⟨p, t⟩
    · exact absurd hsum (by simp)
    · rw [List.map_cons, List.sum_cons] at hsum
      have hp2 := Nat.pos_pow_of_pos p.2 (show 0 < 2 by omega)
      have ht0 : t = [] := by
        rcases t with _ | ⟨q, u⟩
        · rfl
        · rw [List.map_cons, List.sum_cons] at hsum
          have := Nat.pos_pow_of_pos q.2 (show 0 < 2 by omega)
          omega
      subst ht0
      have hp21 : (2 : Nat) ^ p.2 = 1 := by
        simpa using hsum
      have hp20 : p.2 = 0 := by
        by_contra hne
        have h2 : (2 : Nat) ^ 1 ≤ 2 ^ p.2 :=
          Nat.pow_le_pow_right (by omega) (by omega)
        simp at h2
        omega
      obtain ⟨hd, hge, hle⟩ := hbounds p (List.mem_cons_self _ _)
      have hp1 : p.1 = base := by
        rw [hp20] at hle
        simp at hle
        omega
      have hpe : p = (base, 0) := by
        rw [Prod.ext_iff]
        exact ⟨hp1, hp20⟩
      rw [hpe]
  | succ m ih =>
    intro base rs hb hbounds hpw hsum hnbp
    by_cases hA : ∃ p ∈ rs, p.2 = m + 1
    · obtain ⟨p, hp, hp2⟩ := hA
      obtain ⟨hd, hge, hle⟩ := hbounds p hp
      have hp1 : p.1 = base := by
        rw [hp2] at hle
        have := Nat.pos_pow_of_pos (m + 1) (show 0 < 2 by omega)
        omega
      obtain ⟨l1, l2, rfl⟩ := List.append_of_mem hp
      have hperm : (l1 ++ p :: l2).Perm (p :: (l1 ++ l2)) :=
        List.perm_middle
      have hsum2 := (hperm.map (fun p => 2 ^ p.2)).sum_eq
      rw [hsum] at hsum2
      rw [List.map_cons, List.sum_cons, hp2] at hsum2
      have ht0 : l1 ++ l2 = [] := by
        rcases he : l1 ++ l2 with _ | ⟨q, u⟩
        · rfl
        · rw [he, List.map_cons, List.sum_cons] at hsum2
          have := Nat.pos_pow_of_pos q.2 (show 0 < 2 by omega)
          omega
      obtain ⟨he1, he2⟩ := List.append_eq_nil.mp ht0
      subst he1
      subst he2
      have hpe : p = (base, m + 1) := by
        rw [Prod.ext_iff]
        exact ⟨hp1, hp2⟩
      rw [List.nil_append, hpe]
    · exfalso
      push_neg at hA
      have hle2 : ∀ p ∈ rs, p.2 ≤ m := by
        intro p hp
        obtain ⟨hd, hge, hle⟩ := hbounds p hp
        have h2 : (2 : Nat) ^ p.2 ≤ 2 ^ (m + 1) := by omega
        have h3 : p.2 ≤ m + 1 :=
          (Nat.pow_le_pow_iff_right (by omega)).mp h2
        have := hA p hp
        omega
      have hps : (2 : Nat) ^ (m + 1) = 2 ^ m + 2 ^ m := by
        rw [pow_succ]
        omega
      have hbm : (2 : Nat) ^ m ∣ base :=
        dvd_trans (pow_dvd_pow 2 (by omega)) hb
      have hLb : ∀ p ∈ rs.filter (fun p => p.1 < base + 2 ^ m),
          2 ^ p.2 ∣ p.1 ∧ base ≤ p.1 ∧ p.1 + 2 ^ p.2 ≤ base + 2 ^ m := by
        intro p hp
        obtain ⟨hmem, hlt⟩ := List.mem_filter.mp hp
        obtain ⟨hd, hge, hle⟩ := hbounds p hmem
        refine ⟨hd, hge, ?_⟩
        have hdble : 2 ^ p.2 ∣ base + 2 ^ m :=
          dvd_add (dvd_trans (pow_dvd_pow 2 (hle2 p hmem)) hbm)
            (pow_dvd_pow 2 (hle2 p hmem))
        exact dvd_lt_add hd hdble (by simpa using hlt)
      have hRb : ∀ p ∈ rs.filter (fun p => !(p.1 < base + 2 ^ m : Bool)),
          2 ^ p.2 ∣ p.1 ∧ base + 2 ^ m ≤ p.1 ∧
            p.1 + 2 ^ p.2 ≤ (base + 2 ^ m) + 2 ^ m := by
        intro p hp
        obtain ⟨hmem, hlt⟩ := List.mem_filter.mp hp
        obtain ⟨hd, hge, hle⟩ := hbounds p hmem
        simp only [Bool.not_eq_true', decide_eq_false_iff_not,
          Nat.not_lt] at hlt
        exact ⟨hd, hlt, by omega⟩
      have hcard : ∀ (X : List (Nat × Nat)) (lo : Nat),
          (∀ p ∈ X, lo ≤ p.1 ∧ p.1 + 2 ^ p.2 ≤ lo + 2 ^ m) →
          X.Pairwise (fun p q => Disjoint (blockIval p) (blockIval q)) →
          ((X.map fun p => 2 ^ p.2).sum ≤ 2 ^ m) := by
        intro X lo hX hXpw
        have h1 := sum_card_le (X.map blockIval) (Finset.Ico lo (lo + 2 ^ m))
          (by
            intro t ht
            obtain ⟨p, hp, rfl⟩ := List.mem_map.mp ht
            unfold blockIval
            exact Finset.Ico_subset_Ico (hX p hp).1 (hX p hp).2)
          ((List.pairwise_map).mpr hXpw)
        rw [List.map_map] at h1
        have h2 : (X.map (Finset.card ∘ blockIval)).sum =
            (X.map fun p => 2 ^ p.2).sum := by
          congr 1
          apply List.map_congr_left
          intro p hp
          show (blockIval p).card = 2 ^ p.2
          unfold blockIval
          simp
        rw [h2, Nat.card_Ico] at h1
        omega
      have hLpw := hpw.sublist (List.filter_sublist rs
        (p := fun p => p.1 < base + 2 ^ m))
      have hRpw := hpw.sublist (List.filter_sublist rs
        (p := fun p => !(p.1 < base + 2 ^ m : Bool)))
      have hsplit := List.filter_append_perm
        (fun p => (p.1 < base + 2 ^ m : Bool)) rs
      have hsumLR := (hsplit.map (fun p => 2 ^ p.2)).sum_eq
      rw [hsum, List.map_append, List.sum_append] at hsumLR
      have hLle := hcard (rs.filter (fun p => p.1 < base + 2 ^ m)) base
        (fun p hp => ⟨(hLb p hp).2.1, (hLb p hp).2.2⟩) hLpw
      have hRle := hcard
        (rs.filter (fun p => !(p.1 < base + 2 ^ m : Bool)))
        (base + 2 ^ m)
        (fun p hp => ⟨(hRb p hp).2.1, (hRb p hp).2.2⟩) hRpw
      have hLsum : ((rs.filter (fun p => p.1 < base + 2 ^ m)).map
          (fun p => 2 ^ p.2)).sum = 2 ^ m := by omega
      have hRsum : ((rs.filter (fun p => !(p.1 < base + 2 ^ m : Bool))).map
          (fun p => 2 ^ p.2)).sum = 2 ^ m := by omega
      have hLperm := ih base (rs.filter (fun p => p.1 < base + 2 ^ m))
        hbm hLb hLpw hLsum
        (by
          intro p hp hmem
          exact hnbp p (List.mem_of_mem_filter hp)
            (List.mem_of_mem_filter hmem))
      have hRperm := ih (base + 2 ^ m)
        (rs.filter (fun p => !(p.1 < base + 2 ^ m : Bool)))
        (dvd_add hbm dvd_rfl) hRb hRpw hRsum
        (by
          intro p hp hmem
          exact hnbp p (List.mem_of_mem_filter hp)
            (List.mem_of_mem_filter hmem))
      have hLmem : ((base : Nat), m) ∈ rs :=
        List.mem_of_mem_filter (hLperm.symm.subset
          (List.mem_singleton_self _))
      have hRmem : ((base + 2 ^ m : Nat), m) ∈ rs :=
        List.mem_of_mem_filter (hRperm.symm.subset
          (List.mem_singleton_self _))
      have hxor : base ^^^ 2 ^ m = base + 2 ^ m :=
        xor_two_pow_of_dvd m base hb
      have := hnbp ((base : Nat), m) hLmem
      rw [show (((base : Nat), m).1 ^^^ 2 ^ ((base : Nat), m).2,
        ((base : Nat), m).2) = ((base ^^^ 2 ^ m : Nat), m) from rfl,
        hxor] at this
      exact this hRmem

theorem freeRegionsFrom_replicate :
    ∀ (m n : Nat),
      freeRegionsFrom n (List.replicate m ([] : List Nat)) = [] := by
  intro m
  induction m with
  | zero =>
    intro n
    rfl
  | succ m ih =>
    intro n
    show orderEntries n [] ++ _ = []
    simp only [orderEntries, List.map_nil, List.nil_append]
    exact ih (n + 1)

theorem freeRegions_init :
    ∀ (m j n : Nat), j < m →
      freeRegionsFrom n ((List.replicate m ([] : List Nat)).set j [0]) =
        [(0, n + j)] := by
  intro m
  induction m with
  | zero =>
    intro j n hj
    omega
  | succ m ih =>
    intro j n hj
    cases j with
    | zero =>
      show orderEntries n [0] ++
        freeRegionsFrom (n + 1) (List.replicate m []) = _
      rw [freeRegionsFrom_replicate]
      rfl
    | succ j =>
      show orderEntries n [] ++
        freeRegionsFrom (n + 1) ((List.replicate m []).set j [0]) = _
      simp only [orderEntries, List.map_nil, List.nil_append]
      rw [ih j (n + 1) (by omega)]
      rw [show n + 1 + j = n + (j + 1) from by omega]

theorem log2_exact_fuel_pow :
    ∀ (fuel m k : Nat), k ≤ m → m ≤ k + fuel →
      log2_exact_fuel fuel (2 ^ m) k = m := by
  intro fuel
  induction fuel with
  | zero =>
    intro m k h1 h2
    show k = m
    omega
  | succ fuel ih =>
    intro m k h1 h2
    show (if (1 <<< k) < 2 ^ m then
      log2_exact_fuel fuel (2 ^ m) (k + 1) else k) = m
    rw [Nat.one_shiftLeft]
    by_cases hk : k < m
    · rw [if_pos ((Nat.pow_lt_pow_iff_right (by omega)).mpr hk)]
      exact ih m (k + 1) (by omega) (by omega)
    · rw [if_neg (by
        intro hlt
        exact hk ((Nat.pow_lt_pow_iff_right (by omega)).mp hlt))]
      omega

theorem log2_exact_pow (m : Nat) : log2_exact (2 ^ m) = m := by
  unfold log2_exact
  exact log2_exact_fuel_pow (2 ^ m) m 0 (Nat.zero_le m)
    (by have := Nat.lt_two_pow m; omega)

theorem exists_pow_of_and_pred :
    ∀ x : Nat, 0 < x → x &&& (x - 1) = 0 → ∃ m, x = 2 ^ m := by
  intro x
  induction x using Nat.strong_induction_on with
  | _ x ih =>
    intro hpos hand
    rcases Nat.lt_or_ge x 2 with hx2 | hx2
    · refine ⟨0, by omega⟩
    · by_cases hpar : x % 2 = 0
      · obtain ⟨y, hy⟩ : ∃ y, x = 2 * y := ⟨x / 2, by omega⟩
        have hy1 : 1 ≤ y := by omega
        have hand2 : y &&& (y - 1) = 0 := by
          apply Nat.eq_of_testBit_eq
          intro i
          rw [Nat.zero_testBit, Nat.testBit_and]
          have hx : x.testBit (i + 1) = y.testBit i := by
            rw [Nat.testBit_succ, show x / 2 = y from by omega]
          have hx1 : (x - 1).testBit (i + 1) = (y - 1).testBit i := by
            rw [Nat.testBit_succ, show (x - 1) / 2 = y - 1 from by omega]
          have h0 := congrArg (fun t => t.testBit (i + 1)) hand
          dsimp only [] at h0
          rw [Nat.testBit_and, Nat.zero_testBit] at h0
          rw [hx, hx1] at h0
          exact h0
        obtain ⟨m, hm⟩ := ih y (by omega) (by omega) hand2
        exact ⟨m + 1, by rw [hy, hm, pow_succ]; omega⟩
      · exfalso
        have hy1 : x / 2 ≠ 0 := by omega
        obtain ⟨i, hi⟩ : ∃ i, (x / 2).testBit i = true := by
          by_contra hc
          push_neg at hc
          exact hy1 (Nat.eq_of_testBit_eq (fun i => by
            rw [Nat.zero_testBit]
            exact Bool.eq_false_iff.mpr (hc i)))
        have hx : x.testBit (i + 1) = true := by
          rw [Nat.testBit_succ]
          exact hi
        have hx1 : (x - 1).testBit (i + 1) = true := by
          rw [Nat.testBit_succ, show (x - 1) / 2 = x / 2 from by omega]
          exact hi
        have h0 := congrArg (fun t => t.testBit (i + 1)) hand
        dsimp only [] at h0
        rw [Nat.testBit_and, Nat.zero_testBit] at h0
        rw [hx, hx1] at h0
        exact Bool.noConfusion h0

theorem is_power_of_two_pow (x : Nat) (h : is_power_of_two x = true) :
    2 ^ log2_exact x = x := by
  have h2 : x ≠ 0 ∧ x &&& (x - 1) = 0 := by
    unfold is_power_of_two at h
    simp only [Bool.and_eq_true, bne_iff_ne, beq_iff_eq] at h
    exact h
  obtain ⟨m, rfl⟩ := exists_pow_of_and_pred x (by omega) h2.2
  rw [log2_exact_pow]

theorem mkBuddy_inv (total : Nat) (s0 : BuddyAllocator)
    (h : mkBuddy total = some s0) :
    BuddyInv s0 ∧ s0.total_memory = total ∧
    2 ^ s0.max_order = total ∧
    s0.free_lists =
      (List.replicate (s0.max_order + 1) []).set s0.max_order [0] ∧
    s0.allocated_blocks = [] := by
  unfold mkBuddy at h
  by_cases hpw : is_power_of_two total
  · rw [if_neg (by simpa using hpw)] at h
    dsimp only [] at h
    have hs := Option.some.inj h
    have htot : 2 ^ log2_exact total = total := is_power_of_two_pow total hpw
    subst hs
    have hfr : freeRegions ((List.replicate (log2_exact total + 1)
        ([] : List Nat)).set (log2_exact total) [0]) =
        [(0, log2_exact total)] := by
      unfold freeRegions
      rw [freeRegions_init (log2_exact total + 1) (log2_exact total) 0
        (by omega)]
      rw [Nat.zero_add]
    refine ⟨⟨htot.symm, ?_, ?_, ?_⟩, rfl, htot, rfl, rfl⟩
    · show (List.set _ _ _).length = _
      rw [List.length_set, List.length_replicate]
    · show RegWf total (freeRegions _ ++ [])
      rw [List.append_nil, hfr]
      refine ⟨?_, List.pairwise_singleton _ _, ?_⟩
      · intro p hp
        rw [List.mem_singleton] at hp
        subst hp
        exact ⟨dvd_zero _, by rw [Nat.zero_add, htot]⟩
      · rw [List.map_cons, List.map_nil, List.sum_cons, List.sum_nil,
          Nat.add_zero, htot]
    · intro k a ha hmem
      by_cases hkl : k < log2_exact total + 1
      · by_cases hkm : k = log2_exact total
        · subst hkm
          rw [getD_set_self _ _ _ _
            (by rw [List.length_replicate]; omega)] at ha hmem
          rw [List.mem_singleton] at ha hmem
          subst ha
          rw [Nat.zero_xor, Nat.one_shiftLeft] at hmem
          have := Nat.pos_pow_of_pos (log2_exact total) (show 0 < 2 by omega)
          omega
        · rw [getD_set_ne _ _ _ _ _ (fun he => hkm he.symm),
            getD_replicate_of_lt _ _ hkl] at ha
          exact absurd ha (List.not_mem_nil a)
      · rw [List.getD_eq_default _ _
          (by rw [List.length_set, List.length_replicate]; omega)] at ha
        exact absurd ha (List.not_mem_nil a)
  · rw [if_pos (by simpa using hpw)] at h
    exact Option.noConfusion h

theorem buddy_state_reset (s : BuddyAllocator) (h : BuddyInv s)
    (hab : s.allocated_blocks = []) :
    s.free_lists =
      (List.replicate (s.max_order + 1) []).set s.max_order [0] := by
  obtain ⟨htot, hlen, hreg, hnb⟩ := h
  rw [hab, List.append_nil] at hreg
  have hperm : (freeRegions s.free_lists).Perm
      [((0 : Nat), s.max_order)] := by
    refine partition_single s.max_order 0 (freeRegions s.free_lists)
      (dvd_zero _) ?_ hreg.2.1 ?_ ?_
    · intro p hp
      obtain ⟨hd, hr⟩ := hreg.1 p hp
      rw [htot] at hr
      exact ⟨hd, Nat.zero_le _, by rw [Nat.zero_add]; exact hr⟩
    · rw [hreg.2.2]
      exact htot
    · intro p hp hmem
      obtain ⟨hpl, hpm⟩ := (mem_freeRegions _ _).mp hp
      obtain ⟨hql, hqm⟩ := (mem_freeRegions _ _).mp hmem
      dsimp only [] at hqm
      exact hnb p.2 p.1 hpm (by rw [Nat.one_shiftLeft]; exact hqm)
  have hmax_only : ∀ k, k ≠ s.max_order →
      s.free_lists.getD k [] = [] := by
    intro k hk
    rw [List.eq_nil_iff_forall_not_mem]
    intro a ha
    by_cases hkl : k < s.free_lists.length
    · have hm := (mem_freeRegions s.free_lists ((a : Nat), k)).mpr ⟨hkl, ha⟩
      have h2 := hperm.subset hm
      rw [List.mem_singleton] at h2
      exact hk (congrArg Prod.snd h2)
    · rw [List.getD_eq_default _ _ (by omega)] at ha
      exact absurd ha (List.not_mem_nil a)
  have hmaxlen : s.max_order < s.free_lists.length := by
    rw [hlen]
    omega
  have hfr2 : freeRegions (s.free_lists.set s.max_order []) = [] := by
    rw [List.eq_nil_iff_forall_not_mem]
    intro p hp
    obtain ⟨hpl, hpm⟩ := (mem_freeRegions _ _).mp hp
    by_cases hkm : p.2 = s.max_order
    · rw [hkm, getD_set_self _ _ _ _ hmaxlen] at hpm
      exact absurd hpm (List.not_mem_nil _)
    · rw [getD_set_ne _ _ _ _ _ (fun he => hkm he.symm),
        hmax_only p.2 hkm] at hpm
      exact absurd hpm (List.not_mem_nil _)
  have hdec := freeRegions_decomp s.free_lists s.max_order hmaxlen
  rw [hfr2, List.append_nil] at hdec
  have hoe : (orderEntries s.max_order
      (s.free_lists.getD s.max_order [])).Perm
      [((0 : Nat), s.max_order)] := hdec.symm.trans hperm
  have hlen1 : (s.free_lists.getD s.max_order []).length = 1 := by
    have hleq := hoe.length_eq
    unfold orderEntries at hleq
    rw [List.length_map] at hleq
    simpa using hleq
  have hl : s.free_lists.getD s.max_order [] = [0] := by
    rcases he : s.free_lists.getD s.max_order [] with _ | ⟨a, t⟩
    · rw [he] at hlen1
      simp at hlen1
    · rw [he] at hlen1 hoe
      have ht : t = [] := by
        simp only [List.length_cons] at hlen1
        exact List.length_eq_zero.mp (by omega)
      subst ht
      have hsing := List.perm_singleton.mp hoe
      have h3 : orderEntries s.max_order [a] =
          [((a : Nat), s.max_order)] := rfl
      rw [h3] at hsing
      injection hsing with hh _
      rw [show a = ((a : Nat), s.max_order).1 from rfl, hh]
  apply List.ext_get
  · rw [hlen, List.length_set, List.length_replicate]
  · intro i h1 h2
    rw [List.get_eq_getElem, List.get_eq_getElem,
      ← List.getD_eq_getElem s.free_lists [] h1,
      ← List.getD_eq_getElem _ [] h2]
    by_cases him : i = s.max_order
    · subst him
      rw [hl, getD_set_self _ _ _ _
        (by rw [List.length_replicate]; omega)]
    · rw [hmax_only i him, getD_set_ne _ _ _ _ _ (fun he => him he.symm),
        getD_replicate_of_lt _ _
          (show i < s.max_order + 1 from by rw [hlen] at h1; omega)]

theorem largest_free_init (max : Nat) :
    largest_free_go
      ((List.replicate (max + 1) ([] : List Nat)).set max [0]) max =
      2 ^ max := by
  cases max with
  | zero => rfl
  | succ m =>
    have hg : ((List.replicate (m + 2) ([] : List Nat)).set
        (m + 1) [0]).getD (m + 1) [] = [0] :=
      getD_set_self _ _ _ _ (by rw [List.length_replicate]; omega)
    rw [largest_free_go, hg]
    rw [if_neg (by decide), Nat.one_shiftLeft]

/-- C6: for every buddy allocator constructed with a power-of-two total
(`mkBuddy total = some s0`) and every finite sequence of allocations and
frees, freeing every outstanding allocated address (in any order)
returns the allocator exactly to its initial state: the single free
block of order `max_order`, so `largest_free_block` is the whole arena
and `allocated_memory` is zero. -/
theorem buddy_round_trip (total : Nat) (s0 : BuddyAllocator)
    (h0 : mkBuddy total = some s0) (ops : List BuddyOp) (addrs : List Nat)
    (hperm : addrs.Perm (((s0.run ops).allocated_blocks).map Prod.fst)) :
    addrs.foldl BuddyAllocator.free_buddy (s0.run ops) = s0 ∧
    (addrs.foldl BuddyAllocator.free_buddy
      (s0.run ops)).largest_free_block = total ∧
    (addrs.foldl BuddyAllocator.free_buddy
      (s0.run ops)).allocated_memory = 0 := by
  obtain ⟨hinv0, htot0, hpow0, hfl0, hab0⟩ := mkBuddy_inv total s0 h0
  obtain ⟨hinv1, htot1, hmax1⟩ := buddy_run_inv ops s0 hinv0
  obtain ⟨hinv2, hab2, htot2, hmax2⟩ := buddy_free_all addrs (s0.run ops)
    hinv1 hperm
  have htotf : (addrs.foldl BuddyAllocator.free_buddy
      (s0.run ops)).total_memory = total := by
    rw [htot2, htot1, htot0]
  have hmaxf : (addrs.foldl BuddyAllocator.free_buddy
      (s0.run ops)).max_order = s0.max_order := by
    rw [hmax2, hmax1]
  have hflf := buddy_state_reset _ hinv2 hab2
  have heq : addrs.foldl BuddyAllocator.free_buddy (s0.run ops) = s0 := by
    calc addrs.foldl BuddyAllocator.free_buddy (s0.run ops) =
        ⟨(addrs.foldl BuddyAllocator.free_buddy (s0.run ops)).total_memory,
         (addrs.foldl BuddyAllocator.free_buddy (s0.run ops)).max_order,
         (addrs.foldl BuddyAllocator.free_buddy (s0.run ops)).free_lists,
         (addrs.foldl BuddyAllocator.free_buddy
           (s0.run ops)).allocated_blocks⟩ := rfl
      _ = ⟨s0.total_memory, s0.max_order, s0.free_lists,
            s0.allocated_blocks⟩ := by
          rw [hflf, hab2, htotf, hmaxf, htot0, hfl0, hab0]
      _ = s0 := rfl
  refine ⟨heq, ?_, ?_⟩
  · rw [heq]
    show largest_free_go s0.free_lists s0.max_order = total
    rw [hfl0, largest_free_init s0.max_order]
    exact hpow0
  · show ((addrs.foldl BuddyAllocator.free_buddy
      (s0.run ops)).allocated_blocks).foldl
        (fun acc p => acc + (1 <<< p.2)) 0 = 0
    rw [hab2]
    rfl

/-- Witness: on `BuddyAllocator(8)`, after two outstanding allocations
survive the sequence, freeing their addresses in reverse order restores
the initial state. -/
theorem buddy_round_trip_witness :
    mkBuddy 8 = some buddyW ∧
    ([4, 0].foldl BuddyAllocator.free_buddy (buddyW.run opsW) = buddyW ∧
     ([4, 0].foldl BuddyAllocator.free_buddy
       (buddyW.run opsW)).largest_free_block = 8 ∧
     ([4, 0].foldl BuddyAllocator.free_buddy
       (buddyW.run opsW)).allocated_memory = 0) := by
  refine ⟨by decide, buddy_round_trip 8 buddyW (by decide) opsW [4, 0] ?_⟩
  have hk : ((buddyW.run opsW).allocated_blocks).map Prod.fst = [0, 4] := by
    simp [BuddyAllocator.run, opsW, BuddyAllocator.step, buddyW,
      BuddyAllocator.allocate_buddy, BuddyAllocator.free_buddy,
      first_nonempty_from, split_down, coalesce_up, lookup_alloc,
      next_power_of_two, log2_exact, log2_exact_fuel]
  rw [hk]
  exact List.Perm.swap 0 4 []
